import Mathlib

/-!
# A persistent trie: `src/primer/trie.cpp`

The three member functions `Trie::Get`, `Trie::Put` and `Trie::Remove` are embedded over an
explicit store of nodes.  A `std::shared_ptr<const TrieNode>` is an address into the store, a
node's `children_` map is an association list from characters to addresses, and every
`Clone()` / `make_shared` appends a new cell.  The only cells the functions write to are the
ones they have just allocated, which is what the persistence statements are about.

The store never reclaims a cell of a trie that was returned: dropping the last reference to
a node is not modelled.  Only the clones of a `Remove` that ends in `return *this` are
dropped with the call.
-/

deriving instance DecidableEq for Except

namespace bustub

/-! ## Values -/

/-- The value types for which `trie.cpp` instantiates `Put` and `Get` (lines 97 to 114). -/
inductive VType
  | u32
  | u64
  | str
  | integer
  | moveBlocked
  deriving DecidableEq, Repr, Fintype

/-- A stored value together with its C++ type: `uint32_t`, `uint64_t`, `std::string`,
`Integer = std::unique_ptr<uint32_t>` (`none` is the null pointer) and `MoveBlocked`.
`MoveBlocked` is declared in `primer/trie.h`, which is not among the sources; only its
identity as a type of its own is kept. -/
inductive Value
  | u32 (n : Nat)
  | u64 (n : Nat)
  | str (s : String)
  | integer (p : Option Nat)
  | moveBlocked
  deriving DecidableEq, Repr

/-- The C++ type of a value. -/
def Value.type : Value → VType
  | .u32 _ => .u32
  | .u64 _ => .u64
  | .str _ => .str
  | .integer _ => .integer
  | .moveBlocked => .moveBlocked

/-- What `std::make_shared<T>(std::move(value))` does to `value` (line 46): the first
component is the object that is constructed, the second is the state `value` is left in.
Integers are copied, a `unique_ptr` is left null, and a `std::string` is left empty (the
standard only promises a valid state; the common implementations leave the empty string). -/
def Value.moveOut : Value → Value × Value
  | .u32 n => (.u32 n, .u32 n)
  | .u64 n => (.u64 n, .u64 n)
  | .str s => (.str s, .str "")
  | .integer p => (.integer p, .integer none)
  | .moveBlocked => (.moveBlocked, .moveBlocked)

/-! ## Nodes, the store and tries -/

/-- A `std::shared_ptr` to a node: the index of its cell in the store. -/
abbrev Addr := Nat

/-- The `children_` map of a node, `std::map<char, std::shared_ptr<const TrieNode>>`. -/
abbrev Children := List (Char × Addr)

/-- The call `children_.find(c)`: the child stored under `c`, if there is one. -/
def Children.find : Children → Char → Option Addr
  | [], _ => none
  | (c', a) :: rest, c => if c' = c then some a else Children.find rest c

/-- The call `children_.erase(it)` for the entry under `c`. -/
def Children.erase (m : Children) (c : Char) : Children :=
  m.filter (fun p => decide (p.1 ≠ c))

/-- The assignment `children_[c] = ptr`: insert or overwrite the entry under `c`. -/
def Children.assign (m : Children) (c : Char) (ptr : Addr) : Children :=
  (c, ptr) :: Children.erase m c

/-- Modelled from the spec: the node classes of `primer/trie.h`, which is not among the
sources.  A node has the flag `is_value_node_` and the map `children_`; its dynamic type is
`TrieNodeWithValue<T>` exactly when `value_` is `some v` with `v.type = T`, and plain
`TrieNode` when `value_` is `none`.  The flag is a field of its own because `Remove`
(line 81) clears it on a node that keeps its dynamic type. -/
structure TrieNode where
  children_ : Children
  is_value_node_ : Bool
  value_ : Option Value
  deriving DecidableEq, Repr

/-- Modelled from the spec: `Clone()` of `primer/trie.h`, "a shallow copy — same
`is_value_bearing` flag, same value, and a copy of the children mapping".  The copy is a
new object; that it gets a cell of its own is the caller's allocation. -/
def TrieNode.Clone (n : TrieNode) : TrieNode :=
  { children_ := n.children_, is_value_node_ := n.is_value_node_, value_ := n.value_ }

/-- The node built by `TrieNodeWithValue<T>(std::make_shared<T>(...))` (line 46): no
children, value-bearing, holding `v`. -/
def TrieNode.withValue (v : Value) : TrieNode :=
  { children_ := [], is_value_node_ := true, value_ := some v }

/-- The store: cell `a` is the node a pointer with address `a` refers to. -/
abbrev Heap := List TrieNode

/-- Modelled from the spec: the class `Trie` of `primer/trie.h`, "root: ownership handle
to a Node (or empty/absent for an empty trie)". -/
structure Trie where
  root_ : Option Addr
  deriving DecidableEq, Repr

/-- The accessor `GetRoot()`. -/
def Trie.GetRoot (t : Trie) : Option Addr := t.root_

/-- The initial trie: no root. -/
def Trie.empty : Trie := { root_ := none }

/-- Ways in which the C++ code leaves defined behaviour. -/
inductive Fault
  | nullDeref
  | badPointer
  | keyOutOfRange
  deriving DecidableEq, Repr

/-! ## `Trie::Get` (lines 9 to 29) -/

/-- The result of `dynamic_cast<const TrieNodeWithValue<T> *>(aux.get())` followed by
`node->value_.get()` (lines 20 to 24). -/
def TrieNode.castValue (T : VType) (n : TrieNode) : Option Value :=
  match n.value_ with
  | none => none
  | some v => if v.type = T then some v else none

/-- The loop of `Get` (lines 12 to 19) started at the node `aux`: `ok (some a)` when the
loop ends with `aux = a`, `ok none` when it returns `nullptr`. -/
def Trie.getWalk (h : Heap) : Addr → List Char → Except Fault (Option Addr)
  | aux, [] => .ok (some aux)
  | aux, bg :: rest =>
    match h[aux]? with
    | none => .error .badPointer
    | some an =>
      match an.children_.find bg with
      | none => .ok none
      | some child =>
        match h[child]? with
        | none => .error .badPointer
        | some cn =>
          if cn.is_value_node_ then Trie.getWalk h child rest else .ok none

/-- The function `Trie::Get<T>(key)`, in the store `h`.  With no root the loop dereferences
a null pointer as soon as the key has a character; with the empty key the `dynamic_cast`
of a null pointer is null. -/
def Trie.Get (T : VType) (t : Trie) (key : List Char) (h : Heap) :
    Except Fault (Option Value) :=
  match t.GetRoot with
  | none =>
    match key with
    | [] => .ok none
    | _ :: _ => .error .nullDeref
  | some root =>
    match Trie.getWalk h root key with
    | .error e => .error e
    | .ok none => .ok none
    | .ok (some a) =>
      match h[a]? with
      | none => .error .badPointer
      | some n => .ok (n.castValue T)

/-! ## `Trie::Put` (lines 31 to 58) -/

/-- The two statements that end both branches of the loop body of `Put` (lines 42 and 43,
47 and 48): the new node gets a cell, `aux->children_[bg]` is set to it, and it becomes
`aux`. -/
def Trie.graft (h : Heap) (aux : Addr) (an : TrieNode) (bg : Char) (node : TrieNode) :
    Heap × Addr :=
  let ptr := h.length
  ((h ++ [node]).set aux { an with children_ := an.children_.assign bg ptr }, ptr)

/-- One turn of the loop of `Put` (lines 38 to 52): the store, `aux` and `value` after
it. -/
def Trie.putStep (h : Heap) (aux : Addr) (bg : Char) (value : Value) :
    Except Fault (Heap × Addr × Value) :=
  match h[aux]? with
  | none => .error .badPointer
  | some an =>
    let fresh : Heap × Addr × Value :=
      let hp := Trie.graft h aux an bg (TrieNode.withValue value.moveOut.1)
      (hp.1, hp.2, value.moveOut.2)
    match an.children_.find bg with
    | none => .ok fresh
    | some child =>
      match h[child]? with
      | none => .error .badPointer
      | some cn =>
        if cn.is_value_node_ then
          let hp := Trie.graft h aux an bg cn.Clone
          .ok (hp.1, hp.2, value)
        else .ok fresh

/-- The loop of `Put` (lines 37 to 53). -/
def Trie.putLoop : Heap → Addr → List Char → Value → Except Fault Heap
  | h, _, [], _ => .ok h
  | h, aux, bg :: rest, value =>
    match Trie.putStep h aux bg value with
    | .error e => .error e
    | .ok (h1, aux1, value1) => Trie.putLoop h1 aux1 rest value1

/-- The function `Trie::Put<T>(key, value)`: the new trie and the store after the call.
Line 34 calls `Clone()` through the root pointer, whether or not there is a root. -/
def Trie.Put (t : Trie) (key : List Char) (value : Value) (h : Heap) :
    Except Fault (Trie × Heap) :=
  match t.GetRoot with
  | none => .error .nullDeref
  | some root =>
    match h[root]? with
    | none => .error .badPointer
    | some rn =>
      let new_root := h.length
      match Trie.putLoop (h ++ [rn.Clone]) new_root key value with
      | .error e => .error e
      | .ok h1 => .ok ({ root_ := some new_root }, h1)

/-! ## `Trie::Remove` (lines 60 to 88) -/

/-- One turn of the loop of `Remove` (lines 65 to 73): `none` stands for the
`return *this` of line 72. -/
def Trie.removeStep (h : Heap) (aux : Addr) (bg : Char) :
    Except Fault (Option (Heap × Addr)) :=
  match h[aux]? with
  | none => .error .badPointer
  | some an =>
    match an.children_.find bg with
    | none => .ok none
    | some child =>
      match h[child]? with
      | none => .error .badPointer
      | some cn =>
        if cn.is_value_node_ then .ok (some (Trie.graft h aux an bg cn.Clone))
        else .ok none

/-- Lines 75 to 84 of `Remove`, for the last character `bg` of the key. -/
def Trie.removeLast (h : Heap) (aux : Addr) (bg : Char) : Except Fault Heap :=
  match h[aux]? with
  | none => .error .badPointer
  | some an =>
    match an.children_.find bg with
    | none => .ok h
    | some child =>
      match h[child]? with
      | none => .error .badPointer
      | some cn =>
        if cn.is_value_node_ then
          if cn.children_.isEmpty then
            .ok (h.set aux { an with children_ := an.children_.erase bg })
          else
            .ok (Trie.graft h aux an bg { cn.Clone with is_value_node_ := false }).1
        else .ok h

/-- The body of `Remove` after the root is cloned: the loop over all characters but the
last (lines 64 to 74), then lines 75 to 84.  `ok none` is the `return *this` of line 72.
With the empty key `key.end() - 1` lies before `key.begin()` and the loop reads outside
the key. -/
def Trie.removeLoop : Heap → Addr → List Char → Except Fault (Option Heap)
  | _, _, [] => .error .keyOutOfRange
  | h, aux, [bg] =>
    match Trie.removeLast h aux bg with
    | .error e => .error e
    | .ok h1 => .ok (some h1)
  | h, aux, bg :: next :: rest =>
    match Trie.removeStep h aux bg with
    | .error e => .error e
    | .ok none => .ok none
    | .ok (some (h1, aux1)) => Trie.removeLoop h1 aux1 (next :: rest)

/-- The function `Trie::Remove(key)`: the new trie and the store after the call.  On the
`return *this` of line 72 the clones made so far are owned by locals only and die with
them, so the store is the one the call started with. -/
def Trie.Remove (t : Trie) (key : List Char) (h : Heap) : Except Fault (Trie × Heap) :=
  match t.GetRoot with
  | none => .error .nullDeref
  | some root =>
    match h[root]? with
    | none => .error .badPointer
    | some rn =>
      let new_root := h.length
      match Trie.removeLoop (h ++ [rn.Clone]) new_root key with
      | .error e => .error e
      | .ok none => .ok (t, h)
      | .ok (some h1) => .ok ({ root_ := some new_root }, h1)

/-! ## Well-formed stores

What the theorems below assume of a store: the two properties every store has that is
built from `plainStore` by `Put` and `Remove` (`Put_spec` and `Remove_spec` show that both
are kept). -/

/-- No pointer in the store dangles: every child pointer is the address of a cell. -/
def Heap.Closed (h : Heap) : Prop :=
  ∀ n ∈ h, ∀ q ∈ n.children_, q.2 < h.length

instance (h : Heap) : Decidable h.Closed := by
  unfold Heap.Closed
  infer_instance

/-- The direction of the data model's invariant that the code keeps: a node whose flag
`is_value_node_` is set stores a value. -/
def Heap.Flagged (h : Heap) : Prop :=
  ∀ n ∈ h, n.is_value_node_ = true → n.value_ ≠ none

instance (h : Heap) : Decidable h.Flagged := by
  unfold Heap.Flagged
  infer_instance

/-- The store `h` has every cell of `h0`, with the same content. -/
def Heap.Keeps (h h0 : Heap) : Prop :=
  ∀ a, a < h0.length → h[a]? = h0[a]?

/-! ## Lookups as functions of a node's content

The definitions of this part and the next three are used in the proofs only: they say
what `Get` finds below a node before and after the loops of `Put` and `Remove`, in terms
of the store before the call. -/

/-- The child of `n` under `c` that the three loops continue with: the edge exists and
leads to a value-bearing node (the test of lines 14, 39, 66 and 76). -/
def TrieNode.next (h : Heap) (n : TrieNode) (c : Char) : Option TrieNode :=
  match n.children_.find c with
  | none => none
  | some child =>
    match h[child]? with
    | none => none
    | some cn => if cn.is_value_node_ then some cn else none

/-- What `Get<T>` finds for `key` below a node with content `n`, in a store without
dangling pointers. -/
def TrieNode.look (T : VType) (h : Heap) : TrieNode → List Char → Option Value
  | n, [] => n.castValue T
  | n, c :: rest =>
    match n.next h c with
    | none => none
    | some cn => TrieNode.look T h cn rest

/-! ## What a lookup finds after `Put` -/

/-- The node the loop body of `Put` allocates below a node with content `n` for the
character `c`: a clone of the value-bearing child, or a new node holding the value. -/
def TrieNode.putNode (h0 : Heap) (n : TrieNode) (c : Char) (v : Value) : TrieNode :=
  match n.next h0 c with
  | some cn => cn.Clone
  | none => TrieNode.withValue v.moveOut.1

/-- The state of `value` after the loop body of `Put` for the character `c`. -/
def TrieNode.putRest (h0 : Heap) (n : TrieNode) (c : Char) (v : Value) : Value :=
  match n.next h0 c with
  | some _ => v
  | none => v.moveOut.2

/-- What `Get<T>` finds for `key'` below the copy of a node with content `n` once the loop
of `Put` has run over `key` with `v`; the store `h0` is the one before the call. -/
def TrieNode.putLook (T : VType) (h0 : Heap) :
    TrieNode → List Char → Value → List Char → Option Value
  | n, [], _, key' => n.look T h0 key'
  | n, _ :: _, _, [] => n.castValue T
  | n, c :: rest, v, c' :: rest' =>
    if c' = c then
      TrieNode.putLook T h0 (n.putNode h0 c v) rest (n.putRest h0 c v) rest'
    else n.look T h0 (c' :: rest')

/-- The state after the loop of `Put` or `Remove`, started at a new cell `aux` whose
content `an` points into the old store `h0` only. -/
structure LoopPost (h0 h hf : Heap) (aux : Nat) (an nf : TrieNode) : Prop where
  closed : hf.Closed
  length_le : h.length ≤ hf.length
  frame : ∀ a, a < h.length → a ≠ aux → hf[a]? = h[a]?
  node : hf[aux]? = some nf
  flag : nf.is_value_node_ = an.is_value_node_
  value : nf.value_ = an.value_
  flagged : h.Flagged → hf.Flagged

/-! ## What a lookup finds after `Remove` -/

/-- What `Get<T>` finds for `key'` below the copy of a node with content `n` once the body
of `Remove` has run over the non-empty `key` (also when it returned early, for the node
itself); the store `h0` is the one before the call. -/
def TrieNode.removeLook (T : VType) (h0 : Heap) :
    TrieNode → List Char → List Char → Option Value
  | n, [], key' => n.look T h0 key'
  | n, _ :: _, [] => n.castValue T
  | n, [c], c' :: rest' => if c' = c then none else n.look T h0 (c' :: rest')
  | n, c :: next :: rest, c' :: rest' =>
    if c' = c then
      match n.next h0 c with
      | none => none
      | some cn => TrieNode.removeLook T h0 cn (next :: rest) rest'
    else n.look T h0 (c' :: rest')

/-- A value that `std::move` leaves as it was: the integers. -/
def Value.Copied (v : Value) : Prop := v.moveOut = (v, v)

instance (v : Value) : Decidable v.Copied := by
  unfold Value.Copied
  infer_instance

/-! ## The node a walk ends in -/

/-- The content of the node the loop of `Get` ends in, started below a node with content
`n`; `none` when the loop returns `nullptr`. -/
def TrieNode.reach (h : Heap) : TrieNode → List Char → Option TrieNode
  | n, [] => some n
  | n, c :: rest =>
    match n.next h c with
    | none => none
    | some cn => TrieNode.reach h cn rest

/-! ## Example stores -/

/-- A store with one plain node without children. -/
def plainStore : Heap :=
  [{ children_ := [], is_value_node_ := false, value_ := none }]

/-- The trie whose root is the plain node of `plainStore`. -/
def plainTrie : Trie := { root_ := some 0 }

/-- A store for the trie that holds `"a" -> 1` (a `uint32_t`): the root is cell 0. -/
def storeA : Heap :=
  [{ children_ := [('a', 1)], is_value_node_ := false, value_ := none },
   { children_ := [], is_value_node_ := true, value_ := some (.u32 1) }]

/-- A store for the trie that holds `"a" -> 1` and `"ab" -> 2`: the root is cell 0. -/
def storeAB : Heap :=
  [{ children_ := [('a', 1)], is_value_node_ := false, value_ := none },
   { children_ := [('b', 2)], is_value_node_ := true, value_ := some (.u32 1) },
   { children_ := [], is_value_node_ := true, value_ := some (.u32 2) }]

/-- The trie whose root is cell 0 of `storeA` or `storeAB`. -/
def rootedTrie : Trie := { root_ := some 0 }

/-- The store after `Put("ab", 2)` on `rootedTrie` in `storeA`; the new root is cell 2. -/
def storeAPut : Heap :=
  storeA ++
  [{ children_ := [('a', 3)], is_value_node_ := false, value_ := none },
   { children_ := [('b', 4)], is_value_node_ := true, value_ := some (.u32 1) },
   { children_ := [], is_value_node_ := true, value_ := some (.u32 2) }]

/-! ## Paths -/

/-- The node the edges of `key` lead to from the node `a`, whether or not the nodes on the
way are value-bearing: the position of `key` in the trie below `a`. -/
def Trie.pathEnd (h : Heap) : Addr → List Char → Option Addr
  | a, [] => some a
  | a, c :: rest =>
    match h[a]? with
    | none => none
    | some n =>
      match n.children_.find c with
      | none => none
      | some child => Trie.pathEnd h child rest

/-- A store for the trie left by `Put("a", 1)`, `Put("ab", 2)` and `Remove("a")`: the node
for `"a"` keeps its child but its flag is cleared.  The root is cell 0. -/
def storeFlipped : Heap :=
  [{ children_ := [('a', 1)], is_value_node_ := false, value_ := none },
   { children_ := [('b', 2)], is_value_node_ := false, value_ := some (.u32 1) },
   { children_ := [], is_value_node_ := true, value_ := some (.u32 2) }]

/-! ## Tries built by `Put` and `Remove` -/

/-- The cell `a` of the store holds a node that stores a value. -/
def Heap.Valued (h : Heap) (a : Nat) : Prop :=
  ∃ m, h[a]? = some m ∧ m.value_ ≠ none

/-- What `Put` and `Remove` keep true of every node of the store: a node whose flag is set
stores a value; a node whose flag is clear and that stores a value (a node `Remove` has
flipped) has a child; and every child pointer leads to a node that stores a value. -/
def TrieNode.Tidy (h : Heap) (n : TrieNode) : Prop :=
  (n.is_value_node_ = true → n.value_ ≠ none) ∧
  (n.is_value_node_ = false → n.value_ ≠ none → n.children_ ≠ []) ∧
  ∀ q ∈ n.children_, h.Valued q.2

/-- Every node of the store is tidy. -/
def Heap.Tidy (h : Heap) : Prop :=
  ∀ n ∈ h, n.Tidy h

/-- The tries obtained from the trie whose root is a plain node without children by
calls of `Put` and of `Remove` with non-empty keys, each with the store it lives in.  A
call may be made on any trie obtained so far (`older`: the tries obtained before a call
are still tries of the store after it). -/
inductive Built : Heap → Trie → Prop
  | start : Built plainStore plainTrie
  | put (h : Heap) (t : Trie) (k : List Char) (v : Value) (t1 : Trie) (h1 : Heap) :
      Built h t → t.Put k v h = .ok (t1, h1) → Built h1 t1
  | remove (h : Heap) (t : Trie) (k : List Char) (t1 : Trie) (h1 : Heap) :
      Built h t → k ≠ [] → t.Remove k h = .ok (t1, h1) → Built h1 t1
  | older (h : Heap) (t t' : Trie) (h1 : Heap) :
      Built h t → Built h1 t' → h1.Keeps h → Built h1 t

/-- The store after `Put("a", 1)`, `Put("ab", 2)` and `Remove("a")`, each on the result of
the call before, starting from `plainTrie` in `plainStore`; the last root is cell 6. -/
def storeBuilt : Heap :=
  [{ children_ := [], is_value_node_ := false, value_ := none },
   { children_ := [('a', 2)], is_value_node_ := false, value_ := none },
   { children_ := [], is_value_node_ := true, value_ := some (.u32 1) },
   { children_ := [('a', 4)], is_value_node_ := false, value_ := none },
   { children_ := [('b', 5)], is_value_node_ := true, value_ := some (.u32 1) },
   { children_ := [], is_value_node_ := true, value_ := some (.u32 2) },
   { children_ := [('a', 7)], is_value_node_ := false, value_ := none },
   { children_ := [('b', 5)], is_value_node_ := false, value_ := some (.u32 1) }]

/-! # Theorems

## The children map -/

theorem Children.find_erase (m : Children) (c c' : Char) :
    (m.erase c).find c' = if c = c' then none else m.find c' := by
  induction m with
  | nil => simp [Children.erase, Children.find]
  | cons p rest ih =>
    obtain ⟨d, a⟩ := p
    by_cases hd : d = c
    · subst hd
      have : Children.erase ((d, a) :: rest) d = Children.erase rest d := by
        simp [Children.erase]
      rw [this, ih]
      by_cases hc : d = c'
      · simp [hc]
      · simp [hc, Children.find]
    · have : Children.erase ((d, a) :: rest) c = (d, a) :: Children.erase rest c := by
        simp [Children.erase, hd]
      rw [this]
      by_cases hc : c = c'
      · subst hc
        simp [Children.find, hd] at ih ⊢
        exact ih
      · simp only [Children.find, ih, if_neg hc]

theorem Children.find_assign (m : Children) (c c' : Char) (p : Nat) :
    (m.assign c p).find c' = if c = c' then some p else m.find c' := by
  by_cases hc : c = c'
  · simp [Children.assign, Children.find, hc]
  · simp [Children.assign, Children.find, hc, Children.find_erase]

theorem Children.mem_of_find {m : Children} {c : Char} {a : Nat}
    (hf : m.find c = some a) : (c, a) ∈ m := by
  induction m with
  | nil => simp [Children.find] at hf
  | cons p rest ih =>
    obtain ⟨d, b⟩ := p
    by_cases hd : d = c
    · simp [Children.find, hd] at hf
      simp [hd, hf]
    · simp [Children.find, hd] at hf
      exact List.mem_cons_of_mem _ (ih hf)

theorem Children.mem_erase {m : Children} {c : Char} {q : Char × Addr}
    (hq : q ∈ m.erase c) : q ∈ m := by
  simp [Children.erase] at hq
  exact hq.1

theorem Children.mem_assign {m : Children} {c : Char} {p : Nat} {q : Char × Addr}
    (hq : q ∈ m.assign c p) : q = (c, p) ∨ q ∈ m := by
  simp only [Children.assign, List.mem_cons] at hq
  rcases hq with hq | hq
  · exact Or.inl hq
  · exact Or.inr (Children.mem_erase hq)

theorem Children.find_none_of_isEmpty {m : Children} (he : m.isEmpty = true) (c : Char) :
    m.find c = none := by
  cases m with
  | nil => rfl
  | cons p rest => simp at he

/-! ## Stores -/

theorem Heap.Keeps.refl (h : Heap) : h.Keeps h := fun _ _ => rfl

theorem Heap.Keeps.length_le {h h0 : Heap} (hk : h.Keeps h0) : h0.length ≤ h.length := by
  by_contra hlt
  push_neg at hlt
  have h1 := hk h.length hlt
  rw [List.getElem?_eq_none (le_refl _), List.getElem?_eq_getElem hlt] at h1
  cases h1

theorem Heap.Closed.child_lt {h : Heap} (hc : h.Closed) {a : Nat} {n : TrieNode}
    (hn : h[a]? = some n) {c : Char} {ch : Nat} (hf : n.children_.find c = some ch) :
    ch < h.length :=
  hc n (List.getElem?_mem hn) (c, ch) (Children.mem_of_find hf)

/-! ## `Get` as a lookup from the root's content -/

theorem getWalk_look (T : VType) (h : Heap) (hc : h.Closed) (key : List Char) :
    ∀ (a : Nat) (n : TrieNode), h[a]? = some n →
      (Trie.getWalk h a key = .ok none ∧ n.look T h key = none) ∨
      (∃ b m, Trie.getWalk h a key = .ok (some b) ∧ h[b]? = some m ∧
        n.look T h key = m.castValue T) := by
  induction key with
  | nil =>
    intro a n hn
    exact Or.inr ⟨a, n, rfl, hn, rfl⟩
  | cons c rest ih =>
    intro a n hn
    simp only [Trie.getWalk, hn, TrieNode.look, TrieNode.next]
    cases hf : n.children_.find c with
    | none => exact Or.inl ⟨rfl, rfl⟩
    | some ch =>
      have hlt : ch < h.length := hc.child_lt hn hf
      have hch : h[ch]? = some h[ch] := List.getElem?_eq_getElem hlt
      simp only [hch]
      by_cases hv : (h[ch]).is_value_node_ = true
      · simp only [hv, if_true]
        exact ih ch _ hch
      · simp only [hv]
        exact Or.inl ⟨rfl, rfl⟩

theorem Get_eq_look (T : VType) (h : Heap) (hc : h.Closed) (a : Nat) (n : TrieNode)
    (hn : h[a]? = some n) (key : List Char) :
    Trie.Get T { root_ := some a } key h = .ok (n.look T h key) := by
  rcases getWalk_look T h hc key a n hn with ⟨hw, hl⟩ | ⟨b, m, hw, hb, hl⟩
  · simp only [Trie.Get, Trie.GetRoot, hw, hl]
  · simp only [Trie.Get, Trie.GetRoot, hw, hb, hl]

theorem TrieNode.next_mem {h : Heap} {n cn : TrieNode} {c : Char}
    (hx : n.next h c = some cn) : cn ∈ h ∧ cn.is_value_node_ = true := by
  unfold TrieNode.next at hx
  cases hf : n.children_.find c with
  | none => simp [hf] at hx
  | some ch =>
    cases hch : h[ch]? with
    | none => simp [hf, hch] at hx
    | some m =>
      by_cases hv : m.is_value_node_ = true
      · simp [hf, hch, hv] at hx
        subst hx
        exact ⟨List.getElem?_mem hch, hv⟩
      · simp [hf, hch, hv] at hx

theorem TrieNode.next_keeps {h h0 : Heap} (hk : h.Keeps h0) {n : TrieNode}
    (hn : ∀ q ∈ n.children_, q.2 < h0.length) (c : Char) : n.next h c = n.next h0 c := by
  unfold TrieNode.next
  cases hf : n.children_.find c with
  | none => rfl
  | some ch =>
    have hlt : ch < h0.length := hn (c, ch) (Children.mem_of_find hf)
    simp only [hk ch hlt]

theorem TrieNode.look_keeps (T : VType) {h h0 : Heap} (hc0 : h0.Closed) (hk : h.Keeps h0)
    (key : List Char) : ∀ n : TrieNode, (∀ q ∈ n.children_, q.2 < h0.length) →
      n.look T h key = n.look T h0 key := by
  induction key with
  | nil => intro n _; rfl
  | cons c rest ih =>
    intro n hn
    simp only [TrieNode.look, TrieNode.next_keeps hk hn c]
    cases hx : n.next h0 c with
    | none => rfl
    | some cn => exact ih cn (hc0 cn (TrieNode.next_mem hx).1)

/-! ## Grafting a new node -/

theorem graft_length (h : Heap) (aux : Nat) (an : TrieNode) (c : Char) (node : TrieNode) :
    (Trie.graft h aux an c node).1.length = h.length + 1 := by
  simp [Trie.graft]

theorem graft_new (h : Heap) (aux : Nat) (an : TrieNode) (c : Char) (node : TrieNode)
    (haux : aux < h.length) :
    (Trie.graft h aux an c node).1[h.length]? = some node := by
  simp only [Trie.graft]
  rw [List.getElem?_set_ne (Nat.ne_of_lt haux)]
  exact List.getElem?_concat_length h node

theorem graft_aux (h : Heap) (aux : Nat) (an : TrieNode) (c : Char) (node : TrieNode)
    (haux : aux < h.length) :
    (Trie.graft h aux an c node).1[aux]? =
      some { an with children_ := an.children_.assign c h.length } := by
  simp only [Trie.graft]
  rw [List.getElem?_set_self]
  simp only [List.length_append, List.length_singleton]
  exact Nat.lt_succ_of_lt haux

theorem graft_other (h : Heap) (aux : Nat) (an : TrieNode) (c : Char) (node : TrieNode)
    (a : Nat) (ha : a < h.length) (hne : a ≠ aux) :
    (Trie.graft h aux an c node).1[a]? = h[a]? := by
  simp only [Trie.graft]
  rw [List.getElem?_set_ne (Ne.symm hne), List.getElem?_append_left ha]

theorem graft_closed (h : Heap) (hc : h.Closed) (aux : Nat) (an : TrieNode) (c : Char)
    (node : TrieNode) (han : h[aux]? = some an)
    (hnode : ∀ q ∈ node.children_, q.2 < h.length) :
    (Trie.graft h aux an c node).1.Closed := by
  intro n hn q hq
  rw [graft_length]
  simp only [Trie.graft] at hn
  rcases List.mem_or_eq_of_mem_set hn with hn | hn
  · rcases List.mem_append.1 hn with hn | hn
    · exact Nat.lt_succ_of_lt (hc n hn q hq)
    · rw [List.mem_singleton.1 hn] at hq
      exact Nat.lt_succ_of_lt (hnode q hq)
  · subst hn
    rcases Children.mem_assign hq with hq | hq
    · rw [hq]
      exact Nat.lt_succ_self _
    · exact Nat.lt_succ_of_lt (hc an (List.getElem?_mem han) q hq)

theorem Heap.Keeps.mem {h h0 : Heap} (hk : h.Keeps h0) {n : TrieNode} (hn : n ∈ h0) :
    n ∈ h := by
  obtain ⟨i, hi⟩ := List.mem_iff_getElem?.1 hn
  have hlt : i < h0.length := by
    by_contra hge
    rw [List.getElem?_eq_none (not_lt.1 hge)] at hi
    cases hi
  exact List.getElem?_mem ((hk i hlt).trans hi)

theorem graft_flagged (h : Heap) (hv : h.Flagged) (aux : Nat) (an : TrieNode) (c : Char)
    (node : TrieNode) (han : h[aux]? = some an)
    (hnode : node.is_value_node_ = true → node.value_ ≠ none) :
    (Trie.graft h aux an c node).1.Flagged := by
  intro n hn
  simp only [Trie.graft] at hn
  rcases List.mem_or_eq_of_mem_set hn with hn | hn
  · rcases List.mem_append.1 hn with hn | hn
    · exact hv n hn
    · rw [List.mem_singleton.1 hn]
      exact hnode
  · subst hn
    exact hv an (List.getElem?_mem han)

/-! ## The loop of `Put` -/

theorem putNode_flag (h0 : Heap) (n : TrieNode) (c : Char) (v : Value) :
    (n.putNode h0 c v).is_value_node_ = true := by
  unfold TrieNode.putNode
  cases hx : n.next h0 c with
  | none => rfl
  | some cn => exact (TrieNode.next_mem hx).2

theorem putNode_children (h0 : Heap) (hc0 : h0.Closed) (n : TrieNode) (c : Char)
    (v : Value) : ∀ q ∈ (n.putNode h0 c v).children_, q.2 < h0.length := by
  unfold TrieNode.putNode
  cases hx : n.next h0 c with
  | none => intro q hq; simp [TrieNode.withValue] at hq
  | some cn => exact hc0 cn (TrieNode.next_mem hx).1

theorem putNode_value (h0 h : Heap) (hk : h.Keeps h0) (hv : h.Flagged) (n : TrieNode)
    (c : Char) (v : Value) : (n.putNode h0 c v).value_ ≠ none := by
  unfold TrieNode.putNode
  cases hx : n.next h0 c with
  | none => simp [TrieNode.withValue]
  | some cn =>
    exact hv cn (hk.mem (TrieNode.next_mem hx).1) (TrieNode.next_mem hx).2

theorem putStep_eq (h0 h : Heap) (hk : h.Keeps h0) (aux : Nat) (an : TrieNode)
    (han : h[aux]? = some an) (hold : ∀ q ∈ an.children_, q.2 < h0.length)
    (c : Char) (v : Value) :
    Trie.putStep h aux c v =
      .ok ((Trie.graft h aux an c (an.putNode h0 c v)).1, h.length, an.putRest h0 c v) := by
  simp only [Trie.putStep, han, TrieNode.putNode, TrieNode.putRest, TrieNode.next]
  cases hf : an.children_.find c with
  | none => rfl
  | some ch =>
    have hlt : ch < h0.length := hold (c, ch) (Children.mem_of_find hf)
    simp only [hk ch hlt]
    cases hch : h0[ch]? with
    | none =>
      rw [List.getElem?_eq_getElem hlt] at hch
      cases hch
    | some cn =>
      by_cases hv : cn.is_value_node_ = true
      · simp only [hv, if_true]; rfl
      · simp only [hv]; rfl

theorem LoopPost.keeps {h0 h hf : Heap} {aux : Addr} {an nf : TrieNode}
    (hp : LoopPost h0 h hf aux an nf) (hk : h.Keeps h0) (hlo : h0.length ≤ aux) :
    hf.Keeps h0 := by
  intro a ha
  rw [hp.frame a (lt_of_lt_of_le ha hk.length_le) (by omega)]
  exact hk a ha

/-- One graft followed by a loop on the new node: the bookkeeping that `Put` and `Remove`
share.  `spec` is what a lookup finds below the new node after the rest of the loop. -/
theorem graft_then (T : VType) (h0 : Heap) (hc0 : h0.Closed) (h : Heap) (hk : h.Keeps h0)
    (aux : Nat) (hlo : h0.length ≤ aux) (an : TrieNode) (han : h[aux]? = some an)
    (hold : ∀ q ∈ an.children_, q.2 < h0.length) (c : Char) (node : TrieNode)
    (hflag : node.is_value_node_ = true)
    (hnode : h.Flagged → node.value_ ≠ none) (hf : Heap) (nfp : TrieNode)
    (hp : LoopPost h0 (Trie.graft h aux an c node).1 hf h.length node nfp)
    (spec : List Char → Option Value) (hspec : ∀ k', nfp.look T hf k' = spec k') :
    ∃ nf, LoopPost h0 h hf aux an nf ∧
      nf.look T hf [] = an.castValue T ∧
      ∀ c' rest', nf.look T hf (c' :: rest') =
        if c' = c then spec rest' else an.look T h0 (c' :: rest') := by
  have haux : aux < h.length := by
    by_contra hge
    rw [List.getElem?_eq_none (not_lt.1 hge)] at han
    cases han
  have hlen := graft_length h aux an c node
  have hnode' : hf[aux]? =
      some { an with children_ := an.children_.assign c h.length } := by
    rw [hp.frame aux (by rw [hlen]; omega) (Nat.ne_of_lt haux)]
    exact graft_aux h aux an c node haux
  have hpost : LoopPost h0 h hf aux an
      { an with children_ := an.children_.assign c h.length } :=
    { closed := hp.closed
      length_le := by have := hp.length_le; rw [hlen] at this; omega
      frame := by
        intro a ha hne
        rw [hp.frame a (by rw [hlen]; omega) (Nat.ne_of_lt ha)]
        exact graft_other h aux an c node a ha hne
      node := hnode'
      flag := rfl
      value := rfl
      flagged := fun hv =>
        hp.flagged (graft_flagged h hv aux an c node han (fun _ => hnode hv)) }
  have hkf : hf.Keeps h0 := hpost.keeps hk hlo
  refine ⟨_, hpost, rfl, ?_⟩
  intro c' rest'
  by_cases hcc : c' = c
  · subst hcc
    simp only [if_true, TrieNode.look, TrieNode.next, Children.find_assign, hp.node,
      hp.flag, hflag]
    exact hspec rest'
  · have hne : ¬ c = c' := fun e => hcc e.symm
    have hnext : TrieNode.next hf
        { an with children_ := an.children_.assign c h.length } c' = an.next h0 c' := by
      rw [← TrieNode.next_keeps hkf hold c']
      simp only [TrieNode.next, Children.find_assign, if_neg hne]
    simp only [if_neg hcc, TrieNode.look, hnext]
    cases hx : an.next h0 c' with
    | none => rfl
    | some cn =>
      exact TrieNode.look_keeps T hc0 hkf rest' cn (hc0 cn (TrieNode.next_mem hx).1)

theorem putLoop_spec (h0 : Heap) (hc0 : h0.Closed) (key : List Char) :
    ∀ (h : Heap) (aux : Nat) (an : TrieNode) (v : Value), h.Closed → h.Keeps h0 →
      h0.length ≤ aux → h[aux]? = some an → (∀ q ∈ an.children_, q.2 < h0.length) →
      ∃ hf nf, Trie.putLoop h aux key v = .ok hf ∧ LoopPost h0 h hf aux an nf ∧
        ∀ T k', nf.look T hf k' = an.putLook T h0 key v k' := by
  induction key with
  | nil =>
    intro h aux an v hc hk hlo han hold
    refine ⟨h, an, rfl, ⟨hc, le_refl _, fun _ _ _ => rfl, han, rfl, rfl, id⟩, ?_⟩
    intro T k'
    simp only [TrieNode.putLook]
    exact TrieNode.look_keeps T hc0 hk k' an hold
  | cons c rest ih =>
    intro h aux an v hc hk hlo han hold
    have haux : aux < h.length := by
      by_contra hge
      rw [List.getElem?_eq_none (not_lt.1 hge)] at han
      cases han
    have hlen0 : h0.length ≤ h.length := hk.length_le
    have hchild := putNode_children h0 hc0 an c v
    have hc1 : (Trie.graft h aux an c (an.putNode h0 c v)).1.Closed :=
      graft_closed h hc aux an c _ han (fun q hq => lt_of_lt_of_le (hchild q hq) hlen0)
    have hk1 : (Trie.graft h aux an c (an.putNode h0 c v)).1.Keeps h0 := by
      intro a ha
      rw [graft_other h aux an c _ a (by omega) (by omega)]
      exact hk a ha
    obtain ⟨hf, nfp, hrun, hp, hlook⟩ :=
      ih _ h.length (an.putNode h0 c v) (an.putRest h0 c v) hc1 hk1 hlen0
        (graft_new h aux an c _ haux) hchild
    have hstep : Trie.putLoop h aux (c :: rest) v = .ok hf := by
      simp only [Trie.putLoop, putStep_eq h0 h hk aux an han hold c v]
      exact hrun
    have key1 : ∀ T, ∃ nf, LoopPost h0 h hf aux an nf ∧
        ∀ k', nf.look T hf k' = an.putLook T h0 (c :: rest) v k' := by
      intro T
      obtain ⟨nf, hpost, hnil, hcons⟩ :=
        graft_then T h0 hc0 h hk aux hlo an han hold c _ (putNode_flag h0 an c v)
          (fun hv => putNode_value h0 h hk hv an c v) hf nfp hp _ (hlook T)
      refine ⟨nf, hpost, ?_⟩
      intro k'
      cases k' with
      | nil => simpa [TrieNode.putLook] using hnil
      | cons c' rest' => simp only [hcons, TrieNode.putLook]
    obtain ⟨nf, hpost, _⟩ := key1 .u32
    refine ⟨hf, nf, hstep, hpost, ?_⟩
    intro T k'
    obtain ⟨nf', hpost', hl⟩ := key1 T
    have : nf' = nf := Option.some.inj (hpost'.node.symm.trans hpost.node)
    rw [← this]
    exact hl k'

theorem append_flagged (h : Heap) (hv : h.Flagged) {r : Nat} (rn : TrieNode)
    (hrn : h[r]? = some rn) : (h ++ [rn.Clone]).Flagged := by
  intro n hn
  rcases List.mem_append.1 hn with hn | hn
  · exact hv n hn
  · rw [List.mem_singleton.1 hn]
    exact hv rn (List.getElem?_mem hrn)

theorem Get_root_look (T : VType) (h : Heap) (hc : h.Closed) (t : Trie) (a : Nat)
    (n : TrieNode) (hr : t.root_ = some a) (hn : h[a]? = some n) (key : List Char) :
    t.Get T key h = .ok (n.look T h key) := by
  cases t
  simp only at hr
  subst hr
  exact Get_eq_look T h hc a n hn key

/-- What `Put` returns on a trie with a root, in a store without dangling pointers. -/
theorem Put_spec (h : Heap) (hc : h.Closed) (t : Trie) (r : Nat) (rn : TrieNode)
    (hr : t.root_ = some r) (hrn : h[r]? = some rn) (key : List Char) (v : Value) :
    ∃ t1 h1 a n1, t.Put key v h = .ok (t1, h1) ∧ h1.Closed ∧ h1.Keeps h ∧
      (h.Flagged → h1.Flagged) ∧ t1.root_ = some a ∧ h1[a]? = some n1 ∧
      ∀ T k', n1.look T h1 k' = rn.putLook T h key v k' := by
  have hold : ∀ q ∈ rn.children_, q.2 < h.length := hc rn (List.getElem?_mem hrn)
  have hc1 : (h ++ [rn.Clone]).Closed := by
    intro n hn q hq
    rw [List.length_append, List.length_singleton]
    rcases List.mem_append.1 hn with hn | hn
    · exact Nat.lt_succ_of_lt (hc n hn q hq)
    · rw [List.mem_singleton.1 hn] at hq
      exact Nat.lt_succ_of_lt (hold q hq)
  have hk1 : (h ++ [rn.Clone]).Keeps h := fun a ha => List.getElem?_append_left ha
  obtain ⟨hf, nf, hrun, hp, hlook⟩ :=
    putLoop_spec h hc key (h ++ [rn.Clone]) h.length rn v hc1 hk1 (le_refl _)
      (List.getElem?_concat_length h rn) hold
  refine ⟨{ root_ := some h.length }, hf, h.length, nf, ?_, hp.closed,
    hp.keeps hk1 (le_refl _), fun hv => hp.flagged (append_flagged h hv rn hrn), rfl,
    hp.node, hlook⟩
  simp only [Trie.Put, Trie.GetRoot, hr, hrn, hrun]

/-! ## The body of `Remove` -/

theorem look_off_path (T : VType) (h0 : Heap) (hc0 : h0.Closed) (hf : Heap)
    (hkf : hf.Keeps h0) (an nf : TrieNode) (hold : ∀ q ∈ an.children_, q.2 < h0.length)
    (c' : Char) (hfind : nf.children_.find c' = an.children_.find c') (rest' : List Char) :
    nf.look T hf (c' :: rest') = an.look T h0 (c' :: rest') := by
  have hnext : nf.next hf c' = an.next h0 c' := by
    rw [← TrieNode.next_keeps hkf hold c']
    simp only [TrieNode.next, hfind]
  simp only [TrieNode.look, hnext]
  cases hx : an.next h0 c' with
  | none => rfl
  | some cn => exact TrieNode.look_keeps T hc0 hkf rest' cn (hc0 cn (TrieNode.next_mem hx).1)

theorem removeStep_eq (h0 h : Heap) (hk : h.Keeps h0) (aux : Nat) (an : TrieNode)
    (han : h[aux]? = some an) (hold : ∀ q ∈ an.children_, q.2 < h0.length) (c : Char) :
    Trie.removeStep h aux c =
      .ok (match an.next h0 c with
        | none => none
        | some cn => some (Trie.graft h aux an c cn.Clone)) := by
  simp only [Trie.removeStep, han, TrieNode.next]
  cases hf : an.children_.find c with
  | none => rfl
  | some ch =>
    have hlt : ch < h0.length := hold (c, ch) (Children.mem_of_find hf)
    simp only [hk ch hlt]
    cases hch : h0[ch]? with
    | none =>
      rw [List.getElem?_eq_getElem hlt] at hch
      cases hch
    | some cn =>
      by_cases hv : cn.is_value_node_ = true
      · simp only [hv, if_true]
      · simp only [hv]; rfl

theorem removeLast_eq (h0 h : Heap) (hk : h.Keeps h0) (aux : Nat) (an : TrieNode)
    (han : h[aux]? = some an) (hold : ∀ q ∈ an.children_, q.2 < h0.length) (c : Char) :
    Trie.removeLast h aux c =
      .ok (match an.next h0 c with
        | none => h
        | some cn =>
          if cn.children_.isEmpty then
            h.set aux { an with children_ := an.children_.erase c }
          else (Trie.graft h aux an c { cn.Clone with is_value_node_ := false }).1) := by
  simp only [Trie.removeLast, han, TrieNode.next]
  cases hf : an.children_.find c with
  | none => rfl
  | some ch =>
    have hlt : ch < h0.length := hold (c, ch) (Children.mem_of_find hf)
    simp only [hk ch hlt]
    cases hch : h0[ch]? with
    | none =>
      rw [List.getElem?_eq_getElem hlt] at hch
      cases hch
    | some cn =>
      by_cases hv : cn.is_value_node_ = true
      · simp only [hv, if_true]
        by_cases he : cn.children_.isEmpty = true
        · simp only [he, if_true]
        · simp only [he]; rfl
      · simp only [hv]; rfl

theorem removeLast_spec (h0 : Heap) (hc0 : h0.Closed) (h : Heap) (aux : Nat)
    (an : TrieNode) (c : Char) (hc : h.Closed) (hk : h.Keeps h0) (hlo : h0.length ≤ aux)
    (han : h[aux]? = some an) (hold : ∀ q ∈ an.children_, q.2 < h0.length) :
    ∃ hf nf, Trie.removeLast h aux c = .ok hf ∧ LoopPost h0 h hf aux an nf ∧
      ∀ T k', nf.look T hf k' = an.removeLook T h0 [c] k' := by
  have haux : aux < h.length := by
    by_contra hge
    rw [List.getElem?_eq_none (not_lt.1 hge)] at han
    cases han
  have hlen0 : h0.length ≤ h.length := hk.length_le
  rw [removeLast_eq h0 h hk aux an han hold c]
  cases hx : an.next h0 c with
  | none =>
    refine ⟨h, an, rfl, ⟨hc, le_refl _, fun _ _ _ => rfl, han, rfl, rfl, id⟩, ?_⟩
    intro T k'
    cases k' with
    | nil => rfl
    | cons c' rest' =>
      rw [look_off_path T h0 hc0 h hk an an hold c' rfl rest']
      by_cases hcc : c' = c
      · subst hcc
        simp only [TrieNode.removeLook, if_true, TrieNode.look, hx]
      · simp only [TrieNode.removeLook, if_neg hcc]
  | some cn =>
    have hcn := TrieNode.next_mem hx
    by_cases he : cn.children_.isEmpty = true
    · simp only [he, if_true]
      have hpost : LoopPost h0 h (h.set aux { an with children_ := an.children_.erase c })
          aux an { an with children_ := an.children_.erase c } :=
        { closed := by
            intro n hn q hq
            rw [List.length_set]
            rcases List.mem_or_eq_of_mem_set hn with hn | hn
            · exact hc n hn q hq
            · subst hn
              exact hc an (List.getElem?_mem han) q (Children.mem_erase hq)
          length_le := by rw [List.length_set]
          frame := fun a _ hne => List.getElem?_set_ne (Ne.symm hne)
          node := List.getElem?_set_self haux
          flag := rfl
          value := rfl
          flagged := by
            intro hv n hn
            rcases List.mem_or_eq_of_mem_set hn with hn | hn
            · exact hv n hn
            · subst hn
              exact hv an (List.getElem?_mem han) }
      refine ⟨_, _, rfl, hpost, ?_⟩
      intro T k'
      cases k' with
      | nil => rfl
      | cons c' rest' =>
        by_cases hcc : c' = c
        · subst hcc
          simp only [TrieNode.removeLook, if_true, TrieNode.look, TrieNode.next,
            Children.find_erase]
        · have hne : ¬ c = c' := fun e => hcc e.symm
          rw [look_off_path T h0 hc0 _ (hpost.keeps hk hlo) an _ hold c'
            (by simp only [Children.find_erase, if_neg hne]) rest']
          simp only [TrieNode.removeLook, if_neg hcc]
    · simp only [if_neg he]
      have hpost : LoopPost h0 h
          (Trie.graft h aux an c { cn.Clone with is_value_node_ := false }).1 aux an
          { an with children_ := an.children_.assign c h.length } :=
        { closed := graft_closed h hc aux an c _ han
            (fun q hq => lt_of_lt_of_le (hc0 cn hcn.1 q hq) hlen0)
          length_le := by rw [graft_length]; omega
          frame := fun a ha hne => graft_other h aux an c _ a ha hne
          node := graft_aux h aux an c _ haux
          flag := rfl
          value := rfl
          flagged := fun hv =>
            graft_flagged h hv aux an c _ han (fun hf => Bool.noConfusion hf) }
      refine ⟨_, _, rfl, hpost, ?_⟩
      intro T k'
      cases k' with
      | nil => rfl
      | cons c' rest' =>
        by_cases hcc : c' = c
        · subst hcc
          simp only [TrieNode.removeLook, if_true, TrieNode.look, TrieNode.next,
            Children.find_assign, graft_new h aux an c' _ haux]
          rfl
        · have hne : ¬ c = c' := fun e => hcc e.symm
          rw [look_off_path T h0 hc0 _ (hpost.keeps hk hlo) an _ hold c'
            (by simp only [Children.find_assign, if_neg hne]) rest']
          simp only [TrieNode.removeLook, if_neg hcc]

theorem removeLoop_spec (h0 : Heap) (hc0 : h0.Closed) (key : List Char) :
    key ≠ [] → ∀ (h : Heap) (aux : Nat) (an : TrieNode), h.Closed → h.Keeps h0 →
      h0.length ≤ aux → h[aux]? = some an → (∀ q ∈ an.children_, q.2 < h0.length) →
      (Trie.removeLoop h aux key = .ok none ∧
        ∀ T k', an.look T h0 k' = an.removeLook T h0 key k') ∨
      (∃ hf nf, Trie.removeLoop h aux key = .ok (some hf) ∧ LoopPost h0 h hf aux an nf ∧
        ∀ T k', nf.look T hf k' = an.removeLook T h0 key k') := by
  induction key with
  | nil => intro hne; exact absurd rfl hne
  | cons c rest ih =>
    intro _ h aux an hc hk hlo han hold
    cases rest with
    | nil =>
      obtain ⟨hf, nf, hrun, hp, hlook⟩ := removeLast_spec h0 hc0 h aux an c hc hk hlo han hold
      exact Or.inr ⟨hf, nf, by simp only [Trie.removeLoop, hrun], hp, hlook⟩
    | cons c2 rest2 =>
      have haux : aux < h.length := by
        by_contra hge
        rw [List.getElem?_eq_none (not_lt.1 hge)] at han
        cases han
      have hlen0 : h0.length ≤ h.length := hk.length_le
      have hstep := removeStep_eq h0 h hk aux an han hold c
      cases hx : an.next h0 c with
      | none =>
        rw [hx] at hstep
        refine Or.inl ⟨by simp only [Trie.removeLoop, hstep], ?_⟩
        intro T k'
        cases k' with
        | nil => rfl
        | cons c' rest' =>
          by_cases hcc : c' = c
          · subst hcc
            simp only [TrieNode.removeLook, if_true, TrieNode.look, hx]
          · simp only [TrieNode.removeLook, if_neg hcc]
      | some cn =>
        rw [hx] at hstep
        have hcn := TrieNode.next_mem hx
        have hchild : ∀ q ∈ cn.Clone.children_, q.2 < h0.length := hc0 cn hcn.1
        have hc1 : (Trie.graft h aux an c cn.Clone).1.Closed :=
          graft_closed h hc aux an c _ han (fun q hq => lt_of_lt_of_le (hchild q hq) hlen0)
        have hk1 : (Trie.graft h aux an c cn.Clone).1.Keeps h0 := by
          intro a ha
          rw [graft_other h aux an c _ a (by omega) (by omega)]
          exact hk a ha
        have hrun0 : Trie.removeLoop h aux (c :: c2 :: rest2) =
            Trie.removeLoop (Trie.graft h aux an c cn.Clone).1 h.length (c2 :: rest2) := by
          simp only [Trie.removeLoop, hstep]
          rfl
        rcases ih (List.cons_ne_nil c2 rest2) _ h.length cn.Clone hc1 hk1 hlen0
            (graft_new h aux an c _ haux) hchild with ⟨hrun, hlook⟩ | ⟨hf, nfp, hrun, hp, hlook⟩
        · refine Or.inl ⟨by rw [hrun0, hrun], ?_⟩
          intro T k'
          cases k' with
          | nil => rfl
          | cons c' rest' =>
            by_cases hcc : c' = c
            · subst hcc
              simp only [TrieNode.removeLook, if_true, TrieNode.look, hx]
              exact hlook T rest'
            · simp only [TrieNode.removeLook, if_neg hcc]
        · have key1 : ∀ T, ∃ nf, LoopPost h0 h hf aux an nf ∧
              ∀ k', nf.look T hf k' = an.removeLook T h0 (c :: c2 :: rest2) k' := by
            intro T
            obtain ⟨nf, hpost, hnil, hcons⟩ :=
              graft_then T h0 hc0 h hk aux hlo an han hold c _ hcn.2
                (fun hv => hv cn (hk.mem hcn.1) hcn.2) hf nfp hp _ (hlook T)
            refine ⟨nf, hpost, ?_⟩
            intro k'
            cases k' with
            | nil => simpa [TrieNode.removeLook] using hnil
            | cons c' rest' =>
              simp only [hcons, TrieNode.removeLook, hx]
              rfl
          obtain ⟨nf, hpost, _⟩ := key1 .u32
          refine Or.inr ⟨hf, nf, by rw [hrun0, hrun], hpost, ?_⟩
          intro T k'
          obtain ⟨nf', hpost', hl⟩ := key1 T
          have : nf' = nf := Option.some.inj (hpost'.node.symm.trans hpost.node)
          rw [← this]
          exact hl k'

/-- What `Remove` returns for a non-empty key on a trie with a root, in a store without
dangling pointers. -/
theorem Remove_spec (h : Heap) (hc : h.Closed) (t : Trie) (r : Nat) (rn : TrieNode)
    (hr : t.root_ = some r) (hrn : h[r]? = some rn) (key : List Char) (hkey : key ≠ []) :
    ∃ t1 h1 a n1, t.Remove key h = .ok (t1, h1) ∧ h1.Closed ∧ h1.Keeps h ∧
      (h.Flagged → h1.Flagged) ∧ t1.root_ = some a ∧ h1[a]? = some n1 ∧
      ∀ T k', n1.look T h1 k' = rn.removeLook T h key k' := by
  have hold : ∀ q ∈ rn.children_, q.2 < h.length := hc rn (List.getElem?_mem hrn)
  have hc1 : (h ++ [rn.Clone]).Closed := by
    intro n hn q hq
    rw [List.length_append, List.length_singleton]
    rcases List.mem_append.1 hn with hn | hn
    · exact Nat.lt_succ_of_lt (hc n hn q hq)
    · rw [List.mem_singleton.1 hn] at hq
      exact Nat.lt_succ_of_lt (hold q hq)
  have hk1 : (h ++ [rn.Clone]).Keeps h := fun a ha => List.getElem?_append_left ha
  rcases removeLoop_spec h hc key hkey (h ++ [rn.Clone]) h.length rn hc1 hk1 (le_refl _)
      (List.getElem?_concat_length h rn) hold with ⟨hrun, hlook⟩ | ⟨hf, nf, hrun, hp, hlook⟩
  · refine ⟨t, h, r, rn, ?_, hc, Heap.Keeps.refl h, id, hr, hrn, hlook⟩
    simp only [Trie.Remove, Trie.GetRoot, hr, hrn, hrun]
  · refine ⟨{ root_ := some h.length }, hf, h.length, nf, ?_, hp.closed,
      hp.keeps hk1 (le_refl _), fun hv => hp.flagged (append_flagged h hv rn hrn), rfl,
      hp.node, hlook⟩
    simp only [Trie.Remove, Trie.GetRoot, hr, hrn, hrun]

/-! ## Lookups after `Put` and `Remove` -/

theorem removeLook_self (T : VType) (h0 : Heap) (key : List Char) :
    key ≠ [] → ∀ n : TrieNode, n.removeLook T h0 key key = none := by
  induction key with
  | nil => intro hne; exact absurd rfl hne
  | cons c rest ih =>
    intro _ n
    cases rest with
    | nil => simp only [TrieNode.removeLook, if_true]
    | cons c2 rest2 =>
      simp only [TrieNode.removeLook, if_true]
      cases n.next h0 c with
      | none => rfl
      | some cn => exact ih (List.cons_ne_nil c2 rest2) cn

theorem removeLook_frame (T : VType) (h0 : Heap) (key : List Char) :
    ∀ (n : TrieNode) (k' : List Char), ¬ key <+: k' →
      n.removeLook T h0 key k' = n.look T h0 k' := by
  induction key with
  | nil => intro n k' _; rfl
  | cons c rest ih =>
    intro n k' hpre
    cases k' with
    | nil => cases rest <;> rfl
    | cons c' rest' =>
      by_cases hcc : c' = c
      · subst hcc
        have hpre' : ¬ rest <+: rest' := fun hp => hpre (List.cons_prefix_cons.2 ⟨rfl, hp⟩)
        cases rest with
        | nil => exact absurd (List.nil_prefix) hpre'
        | cons c2 rest2 =>
          simp only [TrieNode.removeLook, if_true, TrieNode.look]
          cases n.next h0 c' with
          | none => rfl
          | some cn => exact ih cn rest' hpre'
      · cases rest with
        | nil => simp only [TrieNode.removeLook, if_neg hcc]
        | cons c2 rest2 => simp only [TrieNode.removeLook, if_neg hcc]

/-- A value-bearing child stores a value, so a lookup of its own type finds it. -/
theorem look_next_some (h0 : Heap) (hv : h0.Flagged) {n cn : TrieNode} {c : Char}
    (hx : n.next h0 c = some cn) : ∃ T, n.look T h0 [c] ≠ none := by
  have hcn := TrieNode.next_mem hx
  cases hval : cn.value_ with
  | none => exact absurd hval (hv cn hcn.1 hcn.2)
  | some u =>
    refine ⟨u.type, ?_⟩
    simp [TrieNode.look, hx, TrieNode.castValue, hval]

theorem removeLook_absent (h0 : Heap) (hv : h0.Flagged) (key : List Char) :
    key ≠ [] → ∀ n : TrieNode, (∀ T, n.look T h0 key = none) →
      ∀ T k', n.removeLook T h0 key k' = n.look T h0 k' := by
  induction key with
  | nil => intro hne; exact absurd rfl hne
  | cons c rest ih =>
    intro _ n habs T k'
    cases k' with
    | nil => cases rest <;> rfl
    | cons c' rest' =>
      by_cases hcc : c' = c
      · subst hcc
        cases rest with
        | nil =>
          simp only [TrieNode.removeLook, if_true, TrieNode.look]
          cases hx : n.next h0 c' with
          | none => rfl
          | some cn =>
            obtain ⟨U, hU⟩ := look_next_some h0 hv hx
            exact absurd (habs U) hU
        | cons c2 rest2 =>
          simp only [TrieNode.removeLook, if_true, TrieNode.look]
          cases hx : n.next h0 c' with
          | none => rfl
          | some cn =>
            refine ih (List.cons_ne_nil c2 rest2) cn ?_ T rest'
            intro U
            have := habs U
            simpa only [TrieNode.look, hx] using this
      · cases rest with
        | nil => simp only [TrieNode.removeLook, if_neg hcc]
        | cons c2 rest2 => simp only [TrieNode.removeLook, if_neg hcc]

theorem putLook_frame (T : VType) (h0 : Heap) (key : List Char) :
    ∀ (n : TrieNode) (v : Value) (k' : List Char), ¬ k' <+: key →
      n.putLook T h0 key v k' = n.look T h0 k' := by
  induction key with
  | nil => intro n v k' _; rfl
  | cons c rest ih =>
    intro n v k' hpre
    cases k' with
    | nil => exact absurd (List.nil_prefix) hpre
    | cons c' rest' =>
      by_cases hcc : c' = c
      · subst hcc
        have hpre' : ¬ rest' <+: rest := fun hp => hpre (List.cons_prefix_cons.2 ⟨rfl, hp⟩)
        simp only [TrieNode.putLook, if_true]
        rw [ih _ _ rest' hpre']
        simp only [TrieNode.look, TrieNode.putNode]
        cases hx : n.next h0 c' with
        | some cn => rfl
        | none =>
          cases rest' with
          | nil => exact absurd (List.nil_prefix) hpre'
          | cons c2 rest2 => rfl
      · simp only [TrieNode.putLook, if_neg hcc]

theorem putLook_chain (h0 : Heap) (v : Value) (hcopy : v.Copied) (key : List Char) :
    (TrieNode.withValue v).putLook v.type h0 key v key = some v := by
  induction key with
  | nil => simp [TrieNode.putLook, TrieNode.look, TrieNode.castValue, TrieNode.withValue]
  | cons c rest ih =>
    have hnone : (TrieNode.withValue v).next h0 c = none := rfl
    simp only [TrieNode.putLook, if_true, TrieNode.putNode, TrieNode.putRest, hnone]
    unfold Value.Copied at hcopy
    rw [hcopy]
    exact ih

theorem putLook_fresh (h0 : Heap) (hv : h0.Flagged) (v : Value) (hcopy : v.Copied)
    (key : List Char) : key ≠ [] → ∀ n : TrieNode, (∀ T, n.look T h0 key = none) →
      n.putLook v.type h0 key v key = some v := by
  induction key with
  | nil => intro hne; exact absurd rfl hne
  | cons c rest ih =>
    intro _ n habs
    simp only [TrieNode.putLook, if_true, TrieNode.putNode, TrieNode.putRest]
    cases hx : n.next h0 c with
    | none =>
      have h2 := hcopy
      unfold Value.Copied at h2
      simp only [h2]
      exact putLook_chain h0 v hcopy rest
    | some cn =>
      cases rest with
      | nil =>
        obtain ⟨U, hU⟩ := look_next_some h0 hv hx
        exact absurd (habs U) hU
      | cons c2 rest2 =>
        refine ih (List.cons_ne_nil c2 rest2) cn ?_
        intro U
        have := habs U
        simpa only [TrieNode.look, hx] using this

/-! ## The node a walk ends in -/

theorem look_eq_reach (T : VType) (h : Heap) (key : List Char) :
    ∀ n : TrieNode, n.look T h key =
      match n.reach h key with
      | none => none
      | some m => m.castValue T := by
  induction key with
  | nil => intro n; rfl
  | cons c rest ih =>
    intro n
    simp only [TrieNode.look, TrieNode.reach]
    cases n.next h c with
    | none => rfl
    | some cn => exact ih cn

theorem getWalk_reach (h : Heap) (hc : h.Closed) (key : List Char) :
    ∀ (a : Nat) (n : TrieNode), h[a]? = some n →
      (Trie.getWalk h a key = .ok none ∧ n.reach h key = none) ∨
      (∃ b m, Trie.getWalk h a key = .ok (some b) ∧ h[b]? = some m ∧
        n.reach h key = some m) := by
  induction key with
  | nil =>
    intro a n hn
    exact Or.inr ⟨a, n, rfl, hn, rfl⟩
  | cons c rest ih =>
    intro a n hn
    simp only [Trie.getWalk, hn, TrieNode.reach, TrieNode.next]
    cases hf : n.children_.find c with
    | none => exact Or.inl ⟨rfl, rfl⟩
    | some ch =>
      have hlt : ch < h.length := hc.child_lt hn hf
      have hch : h[ch]? = some h[ch] := List.getElem?_eq_getElem hlt
      simp only [hch]
      by_cases hv : (h[ch]).is_value_node_ = true
      · simp only [hv, if_true]
        exact ih ch _ hch
      · simp only [hv]
        exact Or.inl ⟨rfl, rfl⟩

theorem putLook_on_path (T : VType) (h0 : Heap) (key : List Char) :
    ∀ (n : TrieNode) (v : Value) (k' : List Char), k' <+: key → n.reach h0 k' ≠ none →
      n.putLook T h0 key v k' = n.look T h0 k' := by
  induction key with
  | nil => intro n v k' _ _; rfl
  | cons c rest ih =>
    intro n v k' hpre hreach
    cases k' with
    | nil => rfl
    | cons c' rest' =>
      obtain ⟨hcc, hpre'⟩ := List.cons_prefix_cons.1 hpre
      subst hcc
      simp only [TrieNode.putLook, if_true, TrieNode.putNode, TrieNode.putRest,
        TrieNode.look]
      simp only [TrieNode.reach] at hreach
      cases hx : n.next h0 c' with
      | none => rw [hx] at hreach; exact absurd rfl hreach
      | some cn =>
        rw [hx] at hreach
        exact ih cn v rest' hpre' hreach

theorem removeLook_below (T : VType) (h0 : Heap) (key : List Char) :
    key ≠ [] → ∀ (n : TrieNode) (k' : List Char), key <+: k' →
      n.removeLook T h0 key k' = none := by
  induction key with
  | nil => intro hne; exact absurd rfl hne
  | cons c rest ih =>
    intro _ n k' hpre
    cases k' with
    | nil => exact absurd (List.prefix_nil.1 hpre) (List.cons_ne_nil c rest)
    | cons c' rest' =>
      obtain ⟨hcc, hpre'⟩ := List.cons_prefix_cons.1 hpre
      subst hcc
      cases rest with
      | nil => simp only [TrieNode.removeLook, if_true]
      | cons c2 rest2 =>
        simp only [TrieNode.removeLook, if_true]
        cases n.next h0 c with
        | none => rfl
        | some cn => exact ih (List.cons_ne_nil c2 rest2) cn rest' hpre'

/-! ## The claims -/

/-- C1, at the failing input: on the trie with a plain root, `Put("a", 1)` and then
`Put("a", 2)` both return, and `Get<uint32_t>("a")` on the second result is still `1`: the
second `Put` clones the value-bearing node for `"a"` and never stores `2`. -/
theorem Put_existing_key_keeps_first_value :
    ∃ t1 h1 t2 h2, plainTrie.Put ['a'] (.u32 1) plainStore = .ok (t1, h1) ∧
      t1.Put ['a'] (.u32 2) h1 = .ok (t2, h2) ∧
      t2.Get .u32 ['a'] h2 = .ok (some (.u32 1)) :=
  ⟨_, _, _, _, rfl, rfl, rfl⟩

/-- C2, at the failing input: on the initial trie, which has no root, `Put` dereferences
the null root pointer (line 34), whatever the key, the value and the store. -/
theorem Put_empty_trie_null_root (key : List Char) (v : Value) (h : Heap) :
    Trie.empty.Put key v h = .error .nullDeref := rfl

/-- C3 (persistence): when `Put(k, v)` or `Remove(k)` on a trie `t` returns, in a store
without dangling pointers, every cell that was in the store before the call has the
content it had, and `Get<T>(k')` on `t` returns what it returned before, for every `T`
and `k'`. -/
theorem Put_Remove_persistence (h : Heap) (hc : h.Closed) (t : Trie) (k : List Char)
    (v : Value) (t1 : Trie) (h1 : Heap)
    (hcall : t.Put k v h = .ok (t1, h1) ∨ t.Remove k h = .ok (t1, h1)) :
    (∀ a, a < h.length → h1[a]? = h[a]?) ∧
      ∀ T k', t.Get T k' h1 = t.Get T k' h := by
  cases hr : t.root_ with
  | none =>
    rcases hcall with hcall | hcall
    · simp [Trie.Put, Trie.GetRoot, hr] at hcall
    · simp [Trie.Remove, Trie.GetRoot, hr] at hcall
  | some r =>
    cases hrn : h[r]? with
    | none =>
      rcases hcall with hcall | hcall
      · simp [Trie.Put, Trie.GetRoot, hr, hrn] at hcall
      · simp [Trie.Remove, Trie.GetRoot, hr, hrn] at hcall
    | some rn =>
      have hold : ∀ q ∈ rn.children_, q.2 < h.length := hc rn (List.getElem?_mem hrn)
      have hlt : r < h.length := by
        by_contra hge
        rw [List.getElem?_eq_none (not_lt.1 hge)] at hrn
        cases hrn
      have main : h1.Closed ∧ h1.Keeps h := by
        rcases hcall with hcall | hcall
        · obtain ⟨t2, h2, a, n1, hrun, hc2, hk2, _, _, _, _⟩ :=
            Put_spec h hc t r rn hr hrn k v
          rw [hrun] at hcall
          injection hcall with hcall
          injection hcall with _ hh
          subst hh
          exact ⟨hc2, hk2⟩
        · cases k with
          | nil => simp [Trie.Remove, Trie.GetRoot, hr, hrn, Trie.removeLoop] at hcall
          | cons c rest =>
            obtain ⟨t2, h2, a, n1, hrun, hc2, hk2, _, _, _, _⟩ :=
              Remove_spec h hc t r rn hr hrn (c :: rest) (List.cons_ne_nil c rest)
            rw [hrun] at hcall
            injection hcall with hcall
            injection hcall with _ hh
            subst hh
            exact ⟨hc2, hk2⟩
      refine ⟨main.2, ?_⟩
      intro T k'
      rw [Get_root_look T h1 main.1 t r rn hr ((main.2 r hlt).trans hrn) k',
        Get_root_look T h hc t r rn hr hrn k',
        TrieNode.look_keeps T hc main.2 k' rn hold]

/-- C3, at a concrete input: `Put("ab", 2)` on the trie holding `"a" -> 1`. -/
theorem Put_Remove_persistence_witness :
    (∀ a, a < storeA.length → storeAPut[a]? = storeA[a]?) ∧
      ∀ T k', rootedTrie.Get T k' storeAPut = rootedTrie.Get T k' storeA :=
  Put_Remove_persistence storeA (by decide) rootedTrie ['a', 'b'] (.u32 2)
    { root_ := some 2 } storeAPut (Or.inl (by decide))

/-- C4 (removal correctness): on a trie with a root, in a store without dangling pointers,
`Put(k, v)` returns, `Remove(k)` on its result returns for a non-empty `k`, and
`Get<T>(k)` on that result is absent for every `T`. -/
theorem Get_Remove_Put_absent (h : Heap) (hc : h.Closed) (t : Trie) (r : Nat)
    (hr : t.root_ = some r) (hlt : r < h.length) (k : List Char) (hk : k ≠ [])
    (v : Value) :
    ∃ t1 h1 t2 h2, t.Put k v h = .ok (t1, h1) ∧ t1.Remove k h1 = .ok (t2, h2) ∧
      ∀ T, t2.Get T k h2 = .ok none := by
  obtain ⟨t1, h1, a1, n1, hput, hc1, _, _, hr1, hn1, _⟩ :=
    Put_spec h hc t r h[r] hr (List.getElem?_eq_getElem hlt) k v
  obtain ⟨t2, h2, a2, n2, hrem, hc2, _, _, hr2, hn2, hlook⟩ :=
    Remove_spec h1 hc1 t1 a1 n1 hr1 hn1 k hk
  refine ⟨t1, h1, t2, h2, hput, hrem, ?_⟩
  intro T
  rw [Get_root_look T h2 hc2 t2 a2 n2 hr2 hn2 k, hlook, removeLook_self T h1 k hk n1]

/-- C4, at a concrete input: `Put("ab", 2)` and `Remove("ab")` on the trie holding
`"a" -> 1`. -/
theorem Get_Remove_Put_absent_witness :
    ∃ t1 h1 t2 h2, rootedTrie.Put ['a', 'b'] (.u32 2) storeA = .ok (t1, h1) ∧
      t1.Remove ['a', 'b'] h1 = .ok (t2, h2) ∧ ∀ T, t2.Get T ['a', 'b'] h2 = .ok none :=
  Get_Remove_Put_absent storeA (by decide) rootedTrie 0 rfl (by decide) ['a', 'b']
    (by decide) (.u32 2)

/-- C5 (removing a key that is not there): on a trie with a root, in a store without
dangling pointers whose value-bearing nodes all store a value, if `Get<T>(k)` is absent for
every `T` and `k` is not empty, then `Remove(k)` returns and `Get<T>(k')` on its result
equals `Get<T>(k')` on the receiver, for every `T` and `k'`. -/
theorem Remove_absent_key_noop (h : Heap) (hc : h.Closed) (hv : h.Flagged) (t : Trie)
    (r : Nat) (hr : t.root_ = some r) (hlt : r < h.length) (k : List Char) (hk : k ≠ [])
    (habs : ∀ T, t.Get T k h = .ok none) :
    ∃ t2 h2, t.Remove k h = .ok (t2, h2) ∧ ∀ T k', t2.Get T k' h2 = t.Get T k' h := by
  have hrn : h[r]? = some h[r] := List.getElem?_eq_getElem hlt
  obtain ⟨t2, h2, a2, n2, hrem, hc2, _, _, hr2, hn2, hlook⟩ :=
    Remove_spec h hc t r h[r] hr hrn k hk
  refine ⟨t2, h2, hrem, ?_⟩
  have habs' : ∀ T, (h[r]).look T h k = none := by
    intro T
    have := habs T
    rw [Get_root_look T h hc t r h[r] hr hrn k] at this
    injection this
  intro T k'
  rw [Get_root_look T h2 hc2 t2 a2 n2 hr2 hn2 k', hlook,
    Get_root_look T h hc t r h[r] hr hrn k',
    removeLook_absent h hv k hk h[r] habs' T k']

/-- C5, at a concrete input: `Remove("b")` on the trie holding `"a" -> 1`. -/
theorem Remove_absent_key_noop_witness :
    ∃ t2 h2, rootedTrie.Remove ['b'] storeA = .ok (t2, h2) ∧
      ∀ T k', t2.Get T k' h2 = rootedTrie.Get T k' storeA :=
  Remove_absent_key_noop storeA (by decide) (by decide) rootedTrie 0 rfl (by decide) ['b']
    (by decide) (by decide)

/-- C6 as stated fails: on the trie with a plain root, `Get<uint32_t>("a")` is absent, and
after `Put("ab", 1)` it returns `1`, although `"a"` is a key different from `"ab"`. -/
theorem Put_other_keys_counterexample :
    ∃ t1 h1, plainTrie.Put ['a', 'b'] (.u32 1) plainStore = .ok (t1, h1) ∧
      plainTrie.Get .u32 ['a'] plainStore = .ok none ∧
      t1.Get .u32 ['a'] h1 = .ok (some (.u32 1)) :=
  ⟨_, _, rfl, rfl, rfl⟩

/-- C6 as amended: on a trie with a root, in a store without dangling pointers, `Put(k, v)`
returns, and for every key `k'` different from `k` that is not a proper prefix of `k`, or
whose walk in the receiver ends in a node (every edge of `k'` exists and leads to a
value-bearing node), `Get<T>(k')` on the result equals `Get<T>(k')` on the receiver. -/
theorem Put_other_keys (h : Heap) (hc : h.Closed) (t : Trie) (r : Nat)
    (hr : t.root_ = some r) (hlt : r < h.length) (k : List Char) (v : Value)
    (k' : List Char) (_hne : k' ≠ k)
    (hoff : ¬ k' <+: k ∨ ∃ a, Trie.getWalk h r k' = .ok (some a)) (T : VType) :
    ∃ t1 h1, t.Put k v h = .ok (t1, h1) ∧ t1.Get T k' h1 = t.Get T k' h := by
  have hrn : h[r]? = some h[r] := List.getElem?_eq_getElem hlt
  obtain ⟨t1, h1, a1, n1, hput, hc1, _, _, hr1, hn1, hlook⟩ :=
    Put_spec h hc t r h[r] hr hrn k v
  refine ⟨t1, h1, hput, ?_⟩
  rw [Get_root_look T h1 hc1 t1 a1 n1 hr1 hn1 k', hlook,
    Get_root_look T h hc t r h[r] hr hrn k']
  by_cases hpre : k' <+: k
  · rcases hoff with hoff | ⟨a, hwalk⟩
    · exact absurd hpre hoff
    · have hreach : (h[r]).reach h k' ≠ none := by
        rcases getWalk_reach h hc k' r h[r] hrn with ⟨hw, _⟩ | ⟨b, m, _, _, hm⟩
        · rw [hw] at hwalk
          cases hwalk
        · rw [hm]
          exact Option.some_ne_none m
      rw [putLook_on_path T h k h[r] v k' hpre hreach]
  · rw [putLook_frame T h k h[r] v k' hpre]

/-- C6 as amended, at a concrete input: `Put("ab", 2)` on the trie holding `"a" -> 1`
leaves `Get<uint32_t>("a")` as it was. -/
theorem Put_other_keys_witness :
    ∃ t1 h1, rootedTrie.Put ['a', 'b'] (.u32 2) storeA = .ok (t1, h1) ∧
      t1.Get .u32 ['a'] h1 = rootedTrie.Get .u32 ['a'] storeA :=
  Put_other_keys storeA (by decide) rootedTrie 0 rfl (by decide) ['a', 'b'] (.u32 2) ['a']
    (by decide) (Or.inr ⟨1, rfl⟩) .u32

/-- C7 as stated fails: after `Put("a", 1)` and `Put("ab", 2)` on the trie with a plain
root, `Get<uint32_t>("ab")` returns `2`, and after `Remove("a")` on that trie it is absent,
although `"ab"` is a key different from `"a"`. -/
theorem Remove_other_keys_counterexample :
    ∃ t1 h1 t2 h2 t3 h3, plainTrie.Put ['a'] (.u32 1) plainStore = .ok (t1, h1) ∧
      t1.Put ['a', 'b'] (.u32 2) h1 = .ok (t2, h2) ∧
      t2.Remove ['a'] h2 = .ok (t3, h3) ∧
      t2.Get .u32 ['a', 'b'] h2 = .ok (some (.u32 2)) ∧
      t3.Get .u32 ['a', 'b'] h3 = .ok none :=
  ⟨_, _, _, _, _, _, rfl, rfl, rfl, rfl, rfl⟩

/-- C7 as amended: on a trie with a root, in a store without dangling pointers,
`Remove(k)` returns for a non-empty `k`, and for every key `k'` different from `k`,
`Get<T>(k')` on the result equals `Get<T>(k')` on the receiver when `k` is not a prefix of
`k'`, and is absent when `k` is a prefix of `k'`. -/
theorem Remove_other_keys (h : Heap) (hc : h.Closed) (t : Trie) (r : Nat)
    (hr : t.root_ = some r) (hlt : r < h.length) (k : List Char) (hk : k ≠ [])
    (k' : List Char) (_hne : k' ≠ k) (T : VType) :
    ∃ t2 h2, t.Remove k h = .ok (t2, h2) ∧
      t2.Get T k' h2 = if k <+: k' then .ok none else t.Get T k' h := by
  have hrn : h[r]? = some h[r] := List.getElem?_eq_getElem hlt
  obtain ⟨t2, h2, a2, n2, hrem, hc2, _, _, hr2, hn2, hlook⟩ :=
    Remove_spec h hc t r h[r] hr hrn k hk
  refine ⟨t2, h2, hrem, ?_⟩
  rw [Get_root_look T h2 hc2 t2 a2 n2 hr2 hn2 k', hlook,
    Get_root_look T h hc t r h[r] hr hrn k']
  by_cases hpre : k <+: k'
  · rw [if_pos hpre, removeLook_below T h k hk h[r] k' hpre]
  · rw [if_neg hpre, removeLook_frame T h k h[r] k' hpre]

/-- C7 as amended, at a concrete input: `Remove("ab")` on the trie holding `"a" -> 1` and
`"ab" -> 2` leaves `Get<uint32_t>("a")` at `1`. -/
theorem Remove_other_keys_witness :
    ∃ t2 h2, rootedTrie.Remove ['a', 'b'] storeAB = .ok (t2, h2) ∧
      t2.Get .u32 ['a'] h2 = .ok (some (.u32 1)) := by
  obtain ⟨t2, h2, hrem, hget⟩ :=
    Remove_other_keys storeAB (by decide) rootedTrie 0 rfl (by decide) ['a', 'b']
      (by decide) ['a'] (by decide) .u32
  exact ⟨t2, h2, hrem, hget.trans (by decide)⟩

/-- C8 (a fresh key round-trips): on a trie with a root, in a store without dangling
pointers whose value-bearing nodes all store a value, if `k` is not empty and `Get<T>(k)`
is absent for every `T`, then `Put(k, v)` with a `uint32_t` value `v` returns and
`Get<uint32_t>(k)` on its result returns `v`. -/
theorem Put_fresh_key_roundtrip (h : Heap) (hc : h.Closed) (hv : h.Flagged) (t : Trie)
    (r : Nat) (hr : t.root_ = some r) (hlt : r < h.length) (k : List Char) (hk : k ≠ [])
    (habs : ∀ T, t.Get T k h = .ok none) (x : Nat) :
    ∃ t1 h1, t.Put k (.u32 x) h = .ok (t1, h1) ∧
      t1.Get .u32 k h1 = .ok (some (.u32 x)) := by
  have hrn : h[r]? = some h[r] := List.getElem?_eq_getElem hlt
  obtain ⟨t1, h1, a1, n1, hput, hc1, _, _, hr1, hn1, hlook⟩ :=
    Put_spec h hc t r h[r] hr hrn k (.u32 x)
  refine ⟨t1, h1, hput, ?_⟩
  have habs' : ∀ T, (h[r]).look T h k = none := by
    intro T
    have := habs T
    rw [Get_root_look T h hc t r h[r] hr hrn k] at this
    injection this
  rw [Get_root_look .u32 h1 hc1 t1 a1 n1 hr1 hn1 k, hlook]
  exact congrArg Except.ok (putLook_fresh h hv (.u32 x) rfl k hk h[r] habs')

/-- C8, at the input the claim names: the trie holds `"a" -> 1`, `k = "ab"`, `v = 2`. -/
theorem Put_fresh_key_roundtrip_witness :
    ∃ t1 h1, rootedTrie.Put ['a', 'b'] (.u32 2) storeA = .ok (t1, h1) ∧
      t1.Get .u32 ['a', 'b'] h1 = .ok (some (.u32 2)) :=
  Put_fresh_key_roundtrip storeA (by decide) (by decide) rootedTrie 0 rfl (by decide)
    ['a', 'b'] (by decide) (by decide) 2

/-- C9 (type-mismatch miss): if the walk of `Get` for `k` ends in a node that stores a
value `u`, then `Get<T>(k)` is absent, not a fault, for every `T` other than the type of
`u`; `Get` with the type of `u` returns `u`; and whatever `Get<U>(k)` returns for any `U`
is `u`, with `U` the type of `u`. -/
theorem Get_type_mismatch (h : Heap) (t : Trie) (r : Nat) (k : List Char) (a : Nat)
    (n : TrieNode) (u : Value) (T : VType) (hr : t.root_ = some r)
    (hw : Trie.getWalk h r k = .ok (some a)) (hn : h[a]? = some n)
    (hval : n.value_ = some u) (hne : u.type ≠ T) :
    t.Get T k h = .ok none ∧ t.Get u.type k h = .ok (some u) ∧
      ∀ U w, t.Get U k h = .ok (some w) → w = u ∧ U = u.type := by
  refine ⟨?_, ?_, ?_⟩
  · simp only [Trie.Get, Trie.GetRoot, hr, hw, hn, TrieNode.castValue, hval, if_neg hne]
  · simp only [Trie.Get, Trie.GetRoot, hr, hw, hn, TrieNode.castValue, hval, if_true]
  · intro U w hget
    simp only [Trie.Get, Trie.GetRoot, hr, hw, hn, TrieNode.castValue, hval] at hget
    by_cases hU : u.type = U
    · rw [if_pos hU] at hget
      injection hget with hget
      injection hget with hget
      exact ⟨hget.symm, hU.symm⟩
    · rw [if_neg hU] at hget
      injection hget with hget
      cases hget

/-- C9, at a concrete input: `"a"` holds the `uint32_t` 1 and a `std::string` is asked
for. -/
theorem Get_type_mismatch_witness :
    rootedTrie.Get .str ['a'] storeA = .ok none ∧
      rootedTrie.Get .u32 ['a'] storeA = .ok (some (.u32 1)) :=
  have hm := Get_type_mismatch storeA rootedTrie 0 ['a'] 1
    { children_ := [], is_value_node_ := true, value_ := some (.u32 1) } (.u32 1) .str rfl
    rfl rfl rfl (by decide)
  ⟨hm.1, hm.2.1⟩

/-- C10, at the failing input: on the initial trie, which has no root, `Get` with a key
that has a character dereferences the null root pointer (line 13). -/
theorem Get_empty_trie_null_root (T : VType) (c : Char) (rest : List Char) (h : Heap) :
    Trie.empty.Get T (c :: rest) h = .error .nullDeref := rfl

/-! ## The claims, continued -/

/-- C11, at the failing input: `Put("a", 1)` on the initial trie returns no trie; the call
ends in the dereference of the null root pointer on line 34. -/
theorem Put_null_root_returns_no_trie :
    Trie.empty.GetRoot = none ∧
      Trie.empty.Put ['a'] (.u32 1) [] = .error .nullDeref ∧
      ∀ res, Trie.empty.Put ['a'] (.u32 1) [] ≠ .ok res :=
  ⟨rfl, rfl, fun _ hres => Except.noConfusion hres⟩

/-- C13, at the failing input: `Put("ab", v)` on the trie with a plain root, for the
`unique_ptr` `v` that points to 7, creates two nodes; the node for `"a"` gets `v` and
`Get<Integer>("ab")` returns a null `unique_ptr`.  For the `std::string` `"x"` the node for
`"ab"` gets the moved-from string. -/
theorem Put_moves_value_twice :
    (∃ t1 h1, plainTrie.Put ['a', 'b'] (.integer (some 7)) plainStore = .ok (t1, h1) ∧
      t1.Get .integer ['a'] h1 = .ok (some (.integer (some 7))) ∧
      t1.Get .integer ['a', 'b'] h1 = .ok (some (.integer none))) ∧
    (∃ t1 h1, plainTrie.Put ['a', 'b'] (.str "x") plainStore = .ok (t1, h1) ∧
      t1.Get .str ['a'] h1 = .ok (some (.str "x")) ∧
      t1.Get .str ['a', 'b'] h1 = .ok (some (.str ""))) :=
  ⟨⟨_, _, rfl, rfl, rfl⟩, ⟨_, _, rfl, by decide, by decide⟩⟩

theorem pathEnd_root {h : Heap} {r a : Nat} {n : TrieNode} (q : List Char)
    (hpath : Trie.pathEnd h r q = some a) (hn : h[a]? = some n) :
    ∃ rn, h[r]? = some rn := by
  cases q with
  | nil =>
    simp only [Trie.pathEnd] at hpath
    injection hpath with hpath
    subst hpath
    exact ⟨n, hn⟩
  | cons c rest =>
    simp only [Trie.pathEnd] at hpath
    cases hrn : h[r]? with
    | none => rw [hrn] at hpath; cases hpath
    | some rn => exact ⟨rn, rfl⟩

theorem look_stops (T : VType) (h : Heap) (q : List Char) (c : Char) (rest : List Char) :
    ∀ (r a : Nat) (rn n : TrieNode), h[r]? = some rn → Trie.pathEnd h r q = some a →
      h[a]? = some n → n.next h c = none → rn.look T h (q ++ c :: rest) = none := by
  induction q with
  | nil =>
    intro r a rn n hrn hpath hn hnext
    simp only [Trie.pathEnd] at hpath
    injection hpath with hpath
    subst hpath
    rw [hrn] at hn
    injection hn with hn
    subst hn
    simp only [List.nil_append, TrieNode.look, hnext]
  | cons c0 q' ih =>
    intro r a rn n hrn hpath hn hnext
    simp only [Trie.pathEnd, hrn] at hpath
    cases hf : rn.children_.find c0 with
    | none => simp only [List.cons_append, TrieNode.look, TrieNode.next, hf]
    | some ch =>
      simp only [hf] at hpath
      cases hch : h[ch]? with
      | none => simp only [List.cons_append, TrieNode.look, TrieNode.next, hf, hch]
      | some cn =>
        by_cases hv : cn.is_value_node_ = true
        · simp only [List.cons_append, TrieNode.look, TrieNode.next, hf, hch, hv, if_true]
          exact ih ch a cn n hch hpath hn hnext
        · simp only [List.cons_append, TrieNode.look, TrieNode.next, hf, hch, if_neg hv]

/-- C14 (`Get` cannot pass through a node that is not value-bearing): on a trie with a
root, in a store without dangling pointers, let the edges of `q` lead from the root to a
node `n`, and let the edge of `n` for the next character `c` be missing or lead to a node
that is not value-bearing.  Then `Get<T>` is absent for every key that starts with `q`
and `c`, for every `T`, whatever lies further down. -/
theorem Get_stops_at_plain_node (h : Heap) (hc : h.Closed) (t : Trie) (r : Nat)
    (hr : t.root_ = some r) (q : List Char) (c : Char) (rest : List Char) (a : Nat)
    (n : TrieNode) (hpath : Trie.pathEnd h r q = some a) (hn : h[a]? = some n)
    (hedge : n.children_.find c = none ∨
      ∃ ch cn, n.children_.find c = some ch ∧ h[ch]? = some cn ∧
        cn.is_value_node_ = false)
    (T : VType) : t.Get T (q ++ c :: rest) h = .ok none := by
  obtain ⟨rn, hrn⟩ := pathEnd_root q hpath hn
  have hnext : n.next h c = none := by
    rcases hedge with hf | ⟨ch, cn, hf, hch, hv⟩
    · simp only [TrieNode.next, hf]
    · simp [TrieNode.next, hf, hch, hv]
  rw [Get_root_look T h hc t r rn hr hrn (q ++ c :: rest),
    look_stops T h q c rest r a rn n hrn hpath hn hnext]

/-- C14, at a concrete input: after `Put("a", 1)`, `Put("ab", 2)` and `Remove("a")` the
edge for `'a'` leads to a node that is not value-bearing, and `Get<uint32_t>("ab")` is
absent although the node for `"ab"` below it holds the `uint32_t` 2. -/
theorem Get_stops_at_plain_node_witness :
    rootedTrie.Get .u32 ['a', 'b'] storeFlipped = .ok none ∧
      Trie.pathEnd storeFlipped 0 ['a', 'b'] = some 2 ∧
      storeFlipped[2]? = some (TrieNode.withValue (.u32 2)) :=
  ⟨Get_stops_at_plain_node storeFlipped (by decide) rootedTrie 0 rfl [] 'a' ['b'] 0
    { children_ := [('a', 1)], is_value_node_ := false, value_ := none } rfl rfl
    (Or.inr ⟨1, _, rfl, rfl, rfl⟩) .u32, rfl, rfl⟩

/-- C18 (frame of `Remove`): on a trie with a root, in a store without dangling pointers,
`Remove(k)` returns for a non-empty `k`, and for every key `k'` that does not have `k` as
a prefix, `Get<T>(k')` on the result equals `Get<T>(k')` on the receiver, for every
`T`. -/
theorem Remove_frame (h : Heap) (hc : h.Closed) (t : Trie) (r : Nat)
    (hr : t.root_ = some r) (hlt : r < h.length) (k : List Char) (hk : k ≠ [])
    (k' : List Char) (hpre : ¬ k <+: k') :
    ∃ t2 h2, t.Remove k h = .ok (t2, h2) ∧ ∀ T, t2.Get T k' h2 = t.Get T k' h := by
  have hrn : h[r]? = some h[r] := List.getElem?_eq_getElem hlt
  obtain ⟨t2, h2, a2, n2, hrem, hc2, _, _, hr2, hn2, hlook⟩ :=
    Remove_spec h hc t r h[r] hr hrn k hk
  refine ⟨t2, h2, hrem, ?_⟩
  intro T
  rw [Get_root_look T h2 hc2 t2 a2 n2 hr2 hn2 k', hlook,
    Get_root_look T h hc t r h[r] hr hrn k', removeLook_frame T h k h[r] k' hpre]

/-- C18, at a concrete input: `Remove("ab")` on the trie holding `"a" -> 1` and
`"ab" -> 2` leaves the lookups of `"a"` as they were. -/
theorem Remove_frame_witness :
    ∃ t2 h2, rootedTrie.Remove ['a', 'b'] storeAB = .ok (t2, h2) ∧
      ∀ T, t2.Get T ['a'] h2 = rootedTrie.Get T ['a'] storeAB :=
  Remove_frame storeAB (by decide) rootedTrie 0 rfl (by decide) ['a', 'b'] (by decide)
    ['a'] (by decide)

/-- C19 (frame of `Put`): on a trie with a root, in a store without dangling pointers,
`Put(k, v)` returns, and for every key `k'` that is not a prefix of `k`, `Get<T>(k')` on
the result equals `Get<T>(k')` on the receiver, for every `T`. -/
theorem Put_frame (h : Heap) (hc : h.Closed) (t : Trie) (r : Nat)
    (hr : t.root_ = some r) (hlt : r < h.length) (k : List Char) (v : Value)
    (k' : List Char) (hpre : ¬ k' <+: k) :
    ∃ t1 h1, t.Put k v h = .ok (t1, h1) ∧ ∀ T, t1.Get T k' h1 = t.Get T k' h := by
  have hrn : h[r]? = some h[r] := List.getElem?_eq_getElem hlt
  obtain ⟨t1, h1, a1, n1, hput, hc1, _, _, hr1, hn1, hlook⟩ :=
    Put_spec h hc t r h[r] hr hrn k v
  refine ⟨t1, h1, hput, ?_⟩
  intro T
  rw [Get_root_look T h1 hc1 t1 a1 n1 hr1 hn1 k', hlook,
    Get_root_look T h hc t r h[r] hr hrn k', putLook_frame T h k h[r] v k' hpre]

/-- C19, at a concrete input: in the trie left by `Put("a", 1)`, `Put("ab", 2)` and
`Remove("a")`, `Put("a", 5)` replaces the node for `"a"`, which is not value-bearing, by a
new node without children; the lookups of `"ab"` are as before. -/
theorem Put_frame_witness :
    ∃ t1 h1, rootedTrie.Put ['a'] (.u32 5) storeFlipped = .ok (t1, h1) ∧
      ∀ T, t1.Get T ['a', 'b'] h1 = rootedTrie.Get T ['a', 'b'] storeFlipped :=
  Put_frame storeFlipped (by decide) rootedTrie 0 rfl (by decide) ['a'] (.u32 5)
    ['a', 'b'] (by decide)

/-! ## The nodes `Put` creates -/

theorem Value.moveOut_type (v : Value) :
    v.moveOut.1.type = v.type ∧ v.moveOut.2.type = v.type := by
  cases v <;> exact ⟨rfl, rfl⟩

theorem TrieNode.next_flag {h : Heap} {n cn : TrieNode} {c : Char}
    (hx : n.next h c = some cn) : cn.is_value_node_ = true :=
  (TrieNode.next_mem hx).2

theorem reach_flag (h : Heap) (p : List Char) :
    ∀ (n m : TrieNode), p ≠ [] → n.reach h p = some m → m.is_value_node_ = true := by
  induction p with
  | nil => intro n m hne; exact absurd rfl hne
  | cons c rest ih =>
    intro n m _ hreach
    simp only [TrieNode.reach] at hreach
    cases hx : n.next h c with
    | none => rw [hx] at hreach; cases hreach
    | some cn =>
      rw [hx] at hreach
      cases rest with
      | nil =>
        simp only [TrieNode.reach] at hreach
        injection hreach with hreach
        subst hreach
        exact TrieNode.next_flag hx
      | cons c2 rest2 => exact ih cn m (List.cons_ne_nil c2 rest2) hreach

theorem castValue_withValue {T : VType} {x : Value} (hx : x.type = T) :
    (TrieNode.withValue x).castValue T = some x := by
  simp only [TrieNode.castValue, TrieNode.withValue, hx, if_true]

theorem castValue_some {T : VType} {n : TrieNode} {w : Value}
    (hcast : n.castValue T = some w) : n.value_ = some w ∧ w.type = T := by
  unfold TrieNode.castValue at hcast
  cases hval : n.value_ with
  | none => rw [hval] at hcast; cases hcast
  | some u =>
    rw [hval] at hcast
    by_cases hu : u.type = T
    · simp only [hu, if_true] at hcast
      injection hcast with hcast
      subst hcast
      exact ⟨rfl, hu⟩
    · simp only [if_neg hu] at hcast
      cases hcast

theorem putLook_created (T : VType) (h0 : Heap) (key : List Char) :
    ∀ (n : TrieNode) (v : Value) (p : List Char), v.type = T → p <+: key →
      n.reach h0 p = none → ∃ w, n.putLook T h0 key v p = some w ∧ w.type = T := by
  induction key with
  | nil =>
    intro n v p _ hpre hreach
    rw [List.prefix_nil.1 hpre] at hreach
    cases hreach
  | cons c rest ih =>
    intro n v p hv hpre hreach
    cases p with
    | nil => cases hreach
    | cons c' p' =>
      obtain ⟨hcc, hpre'⟩ := List.cons_prefix_cons.1 hpre
      subst hcc
      simp only [TrieNode.reach] at hreach
      simp only [TrieNode.putLook, if_true, TrieNode.putNode, TrieNode.putRest]
      cases hx : n.next h0 c' with
      | some cn =>
        rw [hx] at hreach
        exact ih cn v p' hv hpre' hreach
      | none =>
        have hty := Value.moveOut_type v
        cases p' with
        | nil =>
          refine ⟨v.moveOut.1, ?_, hty.1.trans hv⟩
          cases rest with
          | nil => exact castValue_withValue (hty.1.trans hv)
          | cons c2 rest2 => exact castValue_withValue (hty.1.trans hv)
        | cons c2 p2 =>
          exact ih (TrieNode.withValue v.moveOut.1) v.moveOut.2 (c2 :: p2)
            (hty.2.trans hv) hpre' rfl

theorem putLoop_path (h0 : Heap) (hc0 : h0.Closed) (key : List Char) :
    ∀ (h : Heap) (aux : Nat) (an : TrieNode) (v : Value), h.Closed → h.Keeps h0 →
      h0.length ≤ aux → h[aux]? = some an → (∀ q ∈ an.children_, q.2 < h0.length) →
      ∀ hf, Trie.putLoop h aux key v = .ok hf → ∀ p, p <+: key →
        ∃ a, Trie.getWalk hf aux p = .ok (some a) ∧ h0.length ≤ a := by
  induction key with
  | nil =>
    intro h aux an v _ _ hlo _ _ hf _ p hpre
    rw [List.prefix_nil.1 hpre]
    exact ⟨aux, rfl, hlo⟩
  | cons c rest ih =>
    intro h aux an v hc hk hlo han hold hf hrun p hpre
    cases p with
    | nil => exact ⟨aux, rfl, hlo⟩
    | cons c' p' =>
      obtain ⟨hcc, hpre'⟩ := List.cons_prefix_cons.1 hpre
      subst hcc
      have haux : aux < h.length := by
        by_contra hge
        rw [List.getElem?_eq_none (not_lt.1 hge)] at han
        cases han
      have hlen0 : h0.length ≤ h.length := hk.length_le
      have hchild := putNode_children h0 hc0 an c' v
      have hc1 : (Trie.graft h aux an c' (an.putNode h0 c' v)).1.Closed :=
        graft_closed h hc aux an c' _ han (fun q hq => lt_of_lt_of_le (hchild q hq) hlen0)
      have hk1 : (Trie.graft h aux an c' (an.putNode h0 c' v)).1.Keeps h0 := by
        intro a ha
        rw [graft_other h aux an c' _ a (by omega) (by omega)]
        exact hk a ha
      have hnew := graft_new h aux an c' (an.putNode h0 c' v) haux
      simp only [Trie.putLoop, putStep_eq h0 h hk aux an han hold c' v] at hrun
      obtain ⟨hf', nfp, hrun', hp, _⟩ :=
        putLoop_spec h0 hc0 rest _ h.length (an.putNode h0 c' v) (an.putRest h0 c' v)
          hc1 hk1 hlen0 hnew hchild
      rw [hrun'] at hrun
      injection hrun with hrun
      subst hrun
      obtain ⟨a, hwalk, ha⟩ :=
        ih _ h.length (an.putNode h0 c' v) (an.putRest h0 c' v) hc1 hk1 hlen0 hnew hchild
          hf' hrun' p' hpre'
      refine ⟨a, ?_, ha⟩
      have hlen := graft_length h aux an c' (an.putNode h0 c' v)
      have hauxf : hf'[aux]? =
          some { an with children_ := an.children_.assign c' h.length } := by
        rw [hp.frame aux (by rw [hlen]; omega) (Nat.ne_of_lt haux)]
        exact graft_aux h aux an c' _ haux
      simp only [Trie.getWalk, hauxf, Children.find_assign, if_true, hp.node, hp.flag,
        putNode_flag h0 an c' v]
      exact hwalk

/-- C12 as stated fails: `Put("ab", 1)` on the trie with a plain root creates two nodes,
and the node for `"a"`, the earlier character, is value-bearing and holds the
`uint32_t` 1; it is not a plain node. -/
theorem Put_node_kinds_counterexample :
    ∃ t1 h1 r1 a m, plainTrie.Put ['a', 'b'] (.u32 1) plainStore = .ok (t1, h1) ∧
      Trie.pathEnd plainStore 0 ['a'] = none ∧
      t1.root_ = some r1 ∧ Trie.pathEnd h1 r1 ['a'] = some a ∧ h1[a]? = some m ∧
      m.is_value_node_ = true ∧ m.value_ = some (.u32 1) :=
  ⟨_, _, _, _, _, rfl, rfl, rfl, rfl, rfl, rfl, rfl⟩

/-- C12 as amended: on a trie with a root, in a store without dangling pointers, `Put(k, v)`
returns, and for every prefix `p` of `k` whose walk in the receiver ends in no node (an
edge of `p` is absent or leads to a node that is not value-bearing), the walk of `p` in the
result ends in a cell allocated by the call, which is value-bearing and stores a value of
the type of `v`. -/
theorem Put_node_kinds (h : Heap) (hc : h.Closed) (t : Trie) (r : Nat)
    (hr : t.root_ = some r) (hlt : r < h.length) (k : List Char) (v : Value)
    (p : List Char) (hpre : p <+: k) (hnew : Trie.getWalk h r p = .ok none) :
    ∃ t1 h1 r1 a m w, t.Put k v h = .ok (t1, h1) ∧ t1.root_ = some r1 ∧
      Trie.getWalk h1 r1 p = .ok (some a) ∧ h.length ≤ a ∧ h1[a]? = some m ∧
      m.is_value_node_ = true ∧ m.value_ = some w ∧ w.type = v.type := by
  have hrn : h[r]? = some h[r] := List.getElem?_eq_getElem hlt
  have hold : ∀ q ∈ (h[r]).children_, q.2 < h.length := hc h[r] (List.getElem?_mem hrn)
  have hreach : (h[r]).reach h p = none := by
    rcases getWalk_reach h hc p r h[r] hrn with ⟨_, hre⟩ | ⟨b, m, hw, _, _⟩
    · exact hre
    · rw [hw] at hnew
      cases hnew
  have hne : p ≠ [] := by
    intro he
    rw [he] at hreach
    cases hreach
  -- the call, unfolded to its loop
  have hc1 : (h ++ [(h[r]).Clone]).Closed := by
    intro n hn q hq
    rw [List.length_append, List.length_singleton]
    rcases List.mem_append.1 hn with hn | hn
    · exact Nat.lt_succ_of_lt (hc n hn q hq)
    · rw [List.mem_singleton.1 hn] at hq
      exact Nat.lt_succ_of_lt (hold q hq)
  have hk1 : (h ++ [(h[r]).Clone]).Keeps h := fun a ha => List.getElem?_append_left ha
  obtain ⟨hf, nf, hrun, hp, hlook⟩ :=
    putLoop_spec h hc k (h ++ [(h[r]).Clone]) h.length h[r] v hc1 hk1 (le_refl _)
      (List.getElem?_concat_length h h[r]) hold
  obtain ⟨a, hwalk, ha⟩ :=
    putLoop_path h hc k (h ++ [(h[r]).Clone]) h.length h[r] v hc1 hk1 (le_refl _)
      (List.getElem?_concat_length h h[r]) hold hf hrun p hpre
  have hput : t.Put k v h = .ok ({ root_ := some h.length }, hf) := by
    simp only [Trie.Put, Trie.GetRoot, hr, hrn, hrun]
  obtain ⟨w, hw, hwt⟩ := putLook_created v.type h k h[r] v p rfl hpre hreach
  rcases getWalk_reach hf hp.closed p h.length nf hp.node with ⟨hw', _⟩ | ⟨b, m, hwb, hm, hre⟩
  · rw [hw'] at hwalk
    cases hwalk
  · rw [hwb] at hwalk
    injection hwalk with hwalk
    injection hwalk with hwalk
    subst hwalk
    have hl := hlook v.type p
    rw [look_eq_reach, hre, hw] at hl
    obtain ⟨hval, hty⟩ := castValue_some hl
    exact ⟨_, hf, h.length, b, m, w, hput, rfl, hwb, ha, hm, reach_flag hf p nf m hne hre,
      hval, hty⟩

/-- C12 as amended, at a concrete input: `Put("abc", 3)` on the trie holding `"a" -> 1`
creates the nodes for `"ab"` and `"abc"`; the node for `"ab"` is value-bearing. -/
theorem Put_node_kinds_witness :
    ∃ t1 h1 r1 a m w, rootedTrie.Put ['a', 'b', 'c'] (.u32 3) storeA = .ok (t1, h1) ∧
      t1.root_ = some r1 ∧ Trie.getWalk h1 r1 ['a', 'b'] = .ok (some a) ∧
      storeA.length ≤ a ∧ h1[a]? = some m ∧ m.is_value_node_ = true ∧
      m.value_ = some w ∧ w.type = VType.u32 :=
  Put_node_kinds storeA (by decide) rootedTrie 0 rfl (by decide) ['a', 'b', 'c'] (.u32 3)
    ['a', 'b'] (by decide) rfl

/-! ## The node `Remove` flips -/

theorem reach_append (h : Heap) (q : List Char) (c : Char) :
    ∀ (n m : TrieNode), n.reach h (q ++ [c]) = some m →
      ∃ pn, n.reach h q = some pn ∧ pn.next h c = some m := by
  induction q with
  | nil =>
    intro n m hreach
    simp only [List.nil_append, TrieNode.reach] at hreach
    cases hx : n.next h c with
    | none => rw [hx] at hreach; cases hreach
    | some cn =>
      rw [hx] at hreach
      simp only [TrieNode.reach] at hreach
      exact ⟨n, rfl, hx.trans hreach⟩
  | cons c0 q' ih =>
    intro n m hreach
    simp only [List.cons_append, TrieNode.reach] at hreach ⊢
    cases hx : n.next h c0 with
    | none => rw [hx] at hreach; cases hreach
    | some cn =>
      rw [hx] at hreach
      exact ih cn m hreach

theorem removeLoop_cons (h : Heap) (aux : Nat) (c0 : Char) (key : List Char)
    (hkey : key ≠ []) :
    Trie.removeLoop h aux (c0 :: key) =
      match Trie.removeStep h aux c0 with
      | .error e => .error e
      | .ok none => .ok none
      | .ok (some (h1, aux1)) => Trie.removeLoop h1 aux1 key := by
  cases key with
  | nil => exact absurd rfl hkey
  | cons c2 rest2 => simp only [Trie.removeLoop]

theorem removeLoop_flip (h0 : Heap) (hc0 : h0.Closed) (q : List Char) (c : Char) :
    ∀ (h : Heap) (aux : Nat) (an pn0 cn : TrieNode), h.Closed → h.Keeps h0 →
      h0.length ≤ aux → h[aux]? = some an → (∀ x ∈ an.children_, x.2 < h0.length) →
      an.reach h0 q = some pn0 → pn0.next h0 c = some cn → cn.children_.isEmpty = false →
      ∃ hf pa pm b, Trie.removeLoop h aux (q ++ [c]) = .ok (some hf) ∧
        Trie.pathEnd hf aux q = some pa ∧ hf[pa]? = some pm ∧
        (∀ c', c' ≠ c → pm.children_.find c' = pn0.children_.find c') ∧
        pm.children_.find c = some b ∧
        hf[b]? = some { cn with is_value_node_ := false } := by
  induction q with
  | nil =>
    intro h aux an pn0 cn _ hk _ han hold hreach hnext hne
    simp only [TrieNode.reach] at hreach
    injection hreach with hreach
    subst hreach
    have haux : aux < h.length := by
      by_contra hge
      rw [List.getElem?_eq_none (not_lt.1 hge)] at han
      cases han
    refine ⟨(Trie.graft h aux an c { cn.Clone with is_value_node_ := false }).1, aux, _,
      h.length, ?_, rfl, graft_aux h aux an c _ haux, ?_, ?_, graft_new h aux an c _ haux⟩
    · simp only [List.nil_append, Trie.removeLoop,
        removeLast_eq h0 h hk aux an han hold c, hnext, hne]
      rfl
    · intro c' hcc
      have hne' : ¬ c = c' := fun e => hcc e.symm
      simp only [Children.find_assign, if_neg hne']
    · simp only [Children.find_assign, if_true]
  | cons c0 q' ih =>
    intro h aux an pn0 cn hc hk hlo han hold hreach hnext hne
    simp only [TrieNode.reach] at hreach
    cases hx : an.next h0 c0 with
    | none => rw [hx] at hreach; cases hreach
    | some cn0 =>
      rw [hx] at hreach
      have haux : aux < h.length := by
        by_contra hge
        rw [List.getElem?_eq_none (not_lt.1 hge)] at han
        cases han
      have hlen0 : h0.length ≤ h.length := hk.length_le
      have hcn0 := TrieNode.next_mem hx
      have hchild : ∀ x ∈ cn0.Clone.children_, x.2 < h0.length := hc0 cn0 hcn0.1
      have hc1 : (Trie.graft h aux an c0 cn0.Clone).1.Closed :=
        graft_closed h hc aux an c0 _ han (fun x hx => lt_of_lt_of_le (hchild x hx) hlen0)
      have hk1 : (Trie.graft h aux an c0 cn0.Clone).1.Keeps h0 := by
        intro a ha
        rw [graft_other h aux an c0 _ a (by omega) (by omega)]
        exact hk a ha
      have hnew := graft_new h aux an c0 cn0.Clone haux
      have hkey : q' ++ [c] ≠ [] := by simp
      have hrun0 : Trie.removeLoop h aux (c0 :: q' ++ [c]) =
          Trie.removeLoop (Trie.graft h aux an c0 cn0.Clone).1 h.length (q' ++ [c]) := by
        rw [List.cons_append, removeLoop_cons h aux c0 (q' ++ [c]) hkey,
          removeStep_eq h0 h hk aux an han hold c0, hx]
        rfl
      obtain ⟨hf, pa, pm, b, hrun, hpath, hpm, hothers, hfind, hb⟩ :=
        ih _ h.length cn0.Clone pn0 cn hc1 hk1 hlen0 hnew hchild hreach hnext hne
      rcases removeLoop_spec h0 hc0 (q' ++ [c]) hkey _ h.length cn0.Clone hc1 hk1 hlen0
          hnew hchild with ⟨hrun', _⟩ | ⟨hf', nfp, hrun', hp, _⟩
      · rw [hrun'] at hrun
        cases hrun
      · rw [hrun'] at hrun
        injection hrun with hrun
        injection hrun with hrun
        subst hrun
        have hlen := graft_length h aux an c0 cn0.Clone
        have hauxf : hf'[aux]? =
            some { an with children_ := an.children_.assign c0 h.length } := by
          rw [hp.frame aux (by rw [hlen]; omega) (Nat.ne_of_lt haux)]
          exact graft_aux h aux an c0 _ haux
        refine ⟨hf', pa, pm, b, by rw [hrun0, hrun'], ?_, hpm, hothers, hfind, hb⟩
        simp only [Trie.pathEnd, hauxf, Children.find_assign, if_true]
        exact hpath

/-- C15 (`Remove` of a key with descendants keeps the subtree): in a store without
dangling pointers, let the walk for the key `q ++ [c]` end in a node `n` that has children
(every node on the way, `n` included, is value-bearing).  Then `Remove` returns; no cell of
the old store is changed; in the result the edges of `q` lead to a node whose edge for `c`
leads to a node that is not value-bearing and has the children map (and the value) of `n`;
and every other edge of that parent is the edge of the old parent. -/
theorem Remove_keeps_subtree (h : Heap) (hc : h.Closed) (t : Trie) (r : Nat)
    (hr : t.root_ = some r) (q : List Char) (c : Char) (a : Nat) (n : TrieNode)
    (hw : Trie.getWalk h r (q ++ [c]) = .ok (some a)) (hn : h[a]? = some n)
    (hch : n.children_ ≠ []) :
    ∃ t2 h2 r2 pa pm b m pa0 pm0, t.Remove (q ++ [c]) h = .ok (t2, h2) ∧
      t2.root_ = some r2 ∧ (∀ x, x < h.length → h2[x]? = h[x]?) ∧
      Trie.pathEnd h2 r2 q = some pa ∧ h2[pa]? = some pm ∧
      pm.children_.find c = some b ∧ h2[b]? = some m ∧
      m.is_value_node_ = false ∧ m.children_ = n.children_ ∧ m.value_ = n.value_ ∧
      Trie.getWalk h r q = .ok (some pa0) ∧ h[pa0]? = some pm0 ∧
      ∀ c', c' ≠ c → pm.children_.find c' = pm0.children_.find c' := by
  have hkey : q ++ [c] ≠ [] := by simp
  cases hrn : h[r]? with
  | none =>
    exfalso
    cases q with
    | nil => simp [Trie.getWalk, hrn] at hw
    | cons c0 q' => simp [Trie.getWalk, hrn] at hw
  | some rn =>
    have hold : ∀ x ∈ rn.children_, x.2 < h.length := hc rn (List.getElem?_mem hrn)
    -- the old parent and the old node
    have hreach : rn.reach h (q ++ [c]) = some n := by
      rcases getWalk_reach h hc (q ++ [c]) r rn hrn with ⟨hw', _⟩ | ⟨b, m, hw', hm, hre⟩
      · rw [hw'] at hw
        cases hw
      · rw [hw'] at hw
        injection hw with hw
        injection hw with hw
        subst hw
        rw [hm] at hn
        injection hn with hn
        subst hn
        exact hre
    obtain ⟨pn0, hreachq, hnext⟩ := reach_append h q c rn n hreach
    obtain ⟨pa0, hwq, hpa0⟩ : ∃ pa0, Trie.getWalk h r q = .ok (some pa0) ∧
        h[pa0]? = some pn0 := by
      rcases getWalk_reach h hc q r rn hrn with ⟨_, hre⟩ | ⟨b, m, hw', hm, hre⟩
      · rw [hre] at hreachq
        cases hreachq
      · rw [hre] at hreachq
        injection hreachq with hreachq
        subst hreachq
        exact ⟨b, hw', hm⟩
    have hne : n.children_.isEmpty = false := by
      cases hl : n.children_ with
      | nil => exact absurd hl hch
      | cons x xs => rfl
    -- the call, unfolded to its loop
    have hc1 : (h ++ [rn.Clone]).Closed := by
      intro n' hn' x hx
      rw [List.length_append, List.length_singleton]
      rcases List.mem_append.1 hn' with hn' | hn'
      · exact Nat.lt_succ_of_lt (hc n' hn' x hx)
      · rw [List.mem_singleton.1 hn'] at hx
        exact Nat.lt_succ_of_lt (hold x hx)
    have hk1 : (h ++ [rn.Clone]).Keeps h := fun x hx => List.getElem?_append_left hx
    obtain ⟨hf, pa, pm, b, hrun, hpath, hpm, hothers, hfind, hb⟩ :=
      removeLoop_flip h hc q c (h ++ [rn.Clone]) h.length rn pn0 n hc1 hk1 (le_refl _)
        (List.getElem?_concat_length h rn) hold hreachq hnext hne
    have hrem : t.Remove (q ++ [c]) h = .ok ({ root_ := some h.length }, hf) := by
      simp only [Trie.Remove, Trie.GetRoot, hr, hrn, hrun]
    obtain ⟨t1, h1, _, _, hrem', _, hkeeps, _, _, _, _⟩ :=
      Remove_spec h hc t r rn hr hrn (q ++ [c]) hkey
    rw [hrem] at hrem'
    injection hrem' with hrem'
    injection hrem' with _ hh
    subst hh
    exact ⟨_, hf, h.length, pa, pm, b, _, pa0, pn0, hrem, rfl, hkeeps, hpath, hpm, hfind,
      hb, rfl, rfl, rfl, hwq, hpa0, hothers⟩

/-- C15, at a concrete input: `Remove("a")` on the trie holding `"a" -> 1` and
`"ab" -> 2`; the new node for `"a"` keeps the edge for `'b'` to cell 2. -/
theorem Remove_keeps_subtree_witness :
    ∃ t2 h2 r2 pa pm b m pa0 pm0, rootedTrie.Remove ['a'] storeAB = .ok (t2, h2) ∧
      t2.root_ = some r2 ∧ (∀ x, x < storeAB.length → h2[x]? = storeAB[x]?) ∧
      Trie.pathEnd h2 r2 [] = some pa ∧ h2[pa]? = some pm ∧
      pm.children_.find 'a' = some b ∧ h2[b]? = some m ∧
      m.is_value_node_ = false ∧ m.children_ = [('b', 2)] ∧ m.value_ = some (.u32 1) ∧
      Trie.getWalk storeAB 0 [] = .ok (some pa0) ∧ storeAB[pa0]? = some pm0 ∧
      ∀ c', c' ≠ 'a' → pm.children_.find c' = pm0.children_.find c' :=
  Remove_keeps_subtree storeAB (by decide) rootedTrie 0 rfl [] 'a' 1
    { children_ := [('b', 2)], is_value_node_ := true, value_ := some (.u32 1) } rfl rfl
    (by decide)

/-! ## What `Put` and `Remove` keep true of the store -/

theorem Heap.Tidy.closed {h : Heap} (ht : h.Tidy) : h.Closed := by
  intro n hn q hq
  obtain ⟨m, hm, _⟩ := (ht n hn).2.2 q hq
  by_contra hge
  rw [List.getElem?_eq_none (not_lt.1 hge)] at hm
  cases hm

theorem TrieNode.Tidy.mono {h h1 : Heap} {n : TrieNode} (hn : n.Tidy h)
    (hmono : ∀ a, h.Valued a → h1.Valued a) : n.Tidy h1 :=
  ⟨hn.1, hn.2.1, fun q hq => hmono q.2 (hn.2.2 q hq)⟩

theorem TrieNode.Tidy.withValue (h : Heap) (x : Value) : (TrieNode.withValue x).Tidy h := by
  refine ⟨fun _ => ?_, fun hf => ?_, fun q hq => ?_⟩
  · simp [TrieNode.withValue]
  · simp [TrieNode.withValue] at hf
  · simp [TrieNode.withValue] at hq

theorem graft_valued (h : Heap) (aux : Nat) (an : TrieNode) (c : Char) (node : TrieNode)
    (han : h[aux]? = some an) :
    ∀ a, h.Valued a → (Trie.graft h aux an c node).1.Valued a := by
  intro a ⟨m, hm, hval⟩
  have ha : a < h.length := by
    by_contra hge
    rw [List.getElem?_eq_none (not_lt.1 hge)] at hm
    cases hm
  by_cases hne : a = aux
  · subst hne
    rw [han] at hm
    injection hm with hm
    subst hm
    exact ⟨_, graft_aux h a an c node ha, hval⟩
  · exact ⟨m, (graft_other h aux an c node a ha hne).trans hm, hval⟩

theorem graft_tidy (h : Heap) (ht : h.Tidy) (aux : Nat) (an : TrieNode) (c : Char)
    (node : TrieNode) (han : h[aux]? = some an) (hnode : node.Tidy h)
    (hval : node.value_ ≠ none) : (Trie.graft h aux an c node).1.Tidy := by
  have haux : aux < h.length := by
    by_contra hge
    rw [List.getElem?_eq_none (not_lt.1 hge)] at han
    cases han
  have hmono := graft_valued h aux an c node han
  have han' := ht an (List.getElem?_mem han)
  intro n hn
  have hn' := hn
  simp only [Trie.graft] at hn'
  rcases List.mem_or_eq_of_mem_set hn' with hn' | hn'
  · rcases List.mem_append.1 hn' with hn' | hn'
    · exact (ht n hn').mono hmono
    · rw [List.mem_singleton.1 hn']
      exact hnode.mono hmono
  · subst hn'
    refine ⟨han'.1, fun _ _ => ?_, fun q hq => ?_⟩
    · simp [Children.assign]
    · rcases Children.mem_assign hq with hq | hq
      · rw [hq]
        exact ⟨node, graft_new h aux an c node haux, hval⟩
      · exact hmono q.2 (han'.2.2 q hq)

theorem append_tidy (h : Heap) (ht : h.Tidy) (n : TrieNode) (hn : n ∈ h) :
    (h ++ [n.Clone]).Tidy := by
  have hmono : ∀ a, h.Valued a → (h ++ [n.Clone]).Valued a := by
    intro a ⟨m, hm, hval⟩
    have ha : a < h.length := by
      by_contra hge
      rw [List.getElem?_eq_none (not_lt.1 hge)] at hm
      cases hm
    exact ⟨m, (List.getElem?_append_left ha).trans hm, hval⟩
  intro m hm
  rcases List.mem_append.1 hm with hm | hm
  · exact (ht m hm).mono hmono
  · rw [List.mem_singleton.1 hm]
    exact (ht n hn).mono hmono

theorem erase_tidy (h : Heap) (ht : h.Tidy) (aux : Nat) (an : TrieNode) (c : Char)
    (han : h[aux]? = some an) (hroot : an.is_value_node_ = true ∨ an.value_ = none) :
    Heap.Tidy (h.set aux { an with children_ := an.children_.erase c }) := by
  have haux : aux < h.length := by
    by_contra hge
    rw [List.getElem?_eq_none (not_lt.1 hge)] at han
    cases han
  have han' := ht an (List.getElem?_mem han)
  have hmono : ∀ a, h.Valued a →
      Heap.Valued (h.set aux { an with children_ := an.children_.erase c }) a := by
    intro a ⟨m, hm, hval⟩
    by_cases hne : a = aux
    · subst hne
      rw [han] at hm
      injection hm with hm
      subst hm
      exact ⟨_, List.getElem?_set_self haux, hval⟩
    · exact ⟨m, (List.getElem?_set_ne (Ne.symm hne)).trans hm, hval⟩
  intro n hn
  rcases List.mem_or_eq_of_mem_set hn with hn | hn
  · exact (ht n hn).mono hmono
  · subst hn
    refine ⟨han'.1, fun hf hv => ?_, fun q hq => hmono q.2 (han'.2.2 q (Children.mem_erase hq))⟩
    rcases hroot with hroot | hroot
    · rw [hroot] at hf
      cases hf
    · exact absurd hroot hv

theorem putStep_tidy (h : Heap) (ht : h.Tidy) (aux : Nat) (an : TrieNode) (c : Char)
    (v : Value) (han : h[aux]? = some an) (h1 : Heap) (p : Nat) (v1 : Value)
    (hstep : Trie.putStep h aux c v = .ok (h1, p, v1)) :
    h1.Tidy ∧ ∃ node, h1[p]? = some node := by
  have haux : aux < h.length := by
    by_contra hge
    rw [List.getElem?_eq_none (not_lt.1 hge)] at han
    cases han
  have hfresh : (Trie.graft h aux an c (TrieNode.withValue v.moveOut.1)).1.Tidy ∧
      ∃ node, (Trie.graft h aux an c (TrieNode.withValue v.moveOut.1)).1[h.length]? =
        some node :=
    ⟨graft_tidy h ht aux an c _ han (TrieNode.Tidy.withValue h _)
      (by simp [TrieNode.withValue]), _, graft_new h aux an c _ haux⟩
  simp only [Trie.putStep, han] at hstep
  cases hf : an.children_.find c with
  | none =>
    simp only [hf] at hstep
    injection hstep with hstep
    injection hstep with e1 hstep
    injection hstep with e2 _
    subst e1
    subst e2
    exact hfresh
  | some ch =>
    simp only [hf] at hstep
    cases hch : h[ch]? with
    | none => simp only [hch] at hstep; cases hstep
    | some cn =>
      simp only [hch] at hstep
      by_cases hv : cn.is_value_node_ = true
      · simp only [hv, if_true] at hstep
        injection hstep with hstep
        injection hstep with e1 hstep
        injection hstep with e2 _
        subst e1
        subst e2
        have hcn := ht cn (List.getElem?_mem hch)
        exact ⟨graft_tidy h ht aux an c _ han hcn (hcn.1 hv), _,
          graft_new h aux an c _ haux⟩
      · simp only [if_neg hv] at hstep
        injection hstep with hstep
        injection hstep with e1 hstep
        injection hstep with e2 _
        subst e1
        subst e2
        exact hfresh

theorem putLoop_tidy (key : List Char) :
    ∀ (h : Heap) (aux : Nat) (an : TrieNode) (v : Value), h.Tidy → h[aux]? = some an →
      ∀ hf, Trie.putLoop h aux key v = .ok hf → hf.Tidy := by
  induction key with
  | nil =>
    intro h aux an v ht _ hf hrun
    simp only [Trie.putLoop] at hrun
    injection hrun with hrun
    subst hrun
    exact ht
  | cons c rest ih =>
    intro h aux an v ht han hf hrun
    simp only [Trie.putLoop] at hrun
    cases hstep : Trie.putStep h aux c v with
    | error e => simp only [hstep] at hrun; cases hrun
    | ok res =>
      obtain ⟨h1, p, v1⟩ := res
      simp only [hstep] at hrun
      obtain ⟨ht1, node, hnode⟩ := putStep_tidy h ht aux an c v han h1 p v1 hstep
      exact ih h1 p node v1 ht1 hnode hf hrun

theorem Put_tidy (h : Heap) (ht : h.Tidy) (t : Trie) (k : List Char) (v : Value)
    (t1 : Trie) (h1 : Heap) (hput : t.Put k v h = .ok (t1, h1)) : h1.Tidy := by
  simp only [Trie.Put] at hput
  cases hr : t.GetRoot with
  | none => simp only [hr] at hput; cases hput
  | some r =>
    simp only [hr] at hput
    cases hrn : h[r]? with
    | none => simp only [hrn] at hput; cases hput
    | some rn =>
      simp only [hrn] at hput
      cases hrun : Trie.putLoop (h ++ [rn.Clone]) h.length k v with
      | error e => simp only [hrun] at hput; cases hput
      | ok hf =>
        simp only [hrun] at hput
        injection hput with hput
        injection hput with _ hh
        subst hh
        exact putLoop_tidy k _ h.length rn.Clone v
          (append_tidy h ht rn (List.getElem?_mem hrn)) (List.getElem?_concat_length h _)
          hf hrun

theorem removeLast_tidy (h : Heap) (ht : h.Tidy) (aux : Nat) (an : TrieNode) (c : Char)
    (han : h[aux]? = some an) (hroot : an.is_value_node_ = true ∨ an.value_ = none)
    (hf : Heap) (hrun : Trie.removeLast h aux c = .ok hf) : hf.Tidy := by
  simp only [Trie.removeLast, han] at hrun
  cases hfind : an.children_.find c with
  | none =>
    simp only [hfind] at hrun
    injection hrun with hrun
    subst hrun
    exact ht
  | some ch =>
    simp only [hfind] at hrun
    cases hch : h[ch]? with
    | none => simp only [hch] at hrun; cases hrun
    | some cn =>
      simp only [hch] at hrun
      have hcn := ht cn (List.getElem?_mem hch)
      by_cases hv : cn.is_value_node_ = true
      · simp only [hv, if_true] at hrun
        by_cases he : cn.children_.isEmpty = true
        · simp only [he, if_true] at hrun
          injection hrun with hrun
          subst hrun
          exact erase_tidy h ht aux an c han hroot
        · simp only [if_neg he] at hrun
          injection hrun with hrun
          subst hrun
          refine graft_tidy h ht aux an c _ han ⟨fun hf => ?_, fun _ _ hnil => ?_, hcn.2.2⟩
            (hcn.1 hv)
          · cases hf
          · apply he
            have hnil' : cn.children_ = [] := hnil
            rw [hnil']
            rfl
      · simp only [if_neg hv] at hrun
        injection hrun with hrun
        subst hrun
        exact ht

theorem removeLoop_tidy (key : List Char) :
    ∀ (h : Heap) (aux : Nat) (an : TrieNode), h.Tidy → h[aux]? = some an →
      (an.is_value_node_ = true ∨ an.value_ = none) →
      ∀ hf, Trie.removeLoop h aux key = .ok (some hf) → hf.Tidy := by
  induction key with
  | nil =>
    intro h aux an _ _ _ hf hrun
    simp only [Trie.removeLoop] at hrun
    cases hrun
  | cons c rest ih =>
    intro h aux an ht han hroot hf hrun
    cases rest with
    | nil =>
      simp only [Trie.removeLoop] at hrun
      cases hlast : Trie.removeLast h aux c with
      | error e => simp only [hlast] at hrun; cases hrun
      | ok h1 =>
        simp only [hlast] at hrun
        injection hrun with hrun
        injection hrun with hrun
        subst hrun
        exact removeLast_tidy h ht aux an c han hroot h1 hlast
    | cons c2 rest2 =>
      have haux : aux < h.length := by
        by_contra hge
        rw [List.getElem?_eq_none (not_lt.1 hge)] at han
        cases han
      simp only [Trie.removeLoop, Trie.removeStep, han] at hrun
      cases hfind : an.children_.find c with
      | none => simp only [hfind] at hrun; cases hrun
      | some ch =>
        simp only [hfind] at hrun
        cases hch : h[ch]? with
        | none => simp only [hch] at hrun; cases hrun
        | some cn =>
          simp only [hch] at hrun
          have hcn := ht cn (List.getElem?_mem hch)
          by_cases hv : cn.is_value_node_ = true
          · simp only [hv, if_true] at hrun
            exact ih _ h.length cn.Clone
              (graft_tidy h ht aux an c _ han hcn (hcn.1 hv))
              (graft_new h aux an c _ haux) (Or.inl hv) hf hrun
          · simp only [if_neg hv] at hrun
            cases hrun

theorem Remove_tidy (h : Heap) (ht : h.Tidy) (t : Trie) (r : Nat) (rn : TrieNode)
    (hr : t.root_ = some r) (hrn : h[r]? = some rn) (hval : rn.value_ = none)
    (k : List Char) (t1 : Trie) (h1 : Heap) (hrem : t.Remove k h = .ok (t1, h1)) :
    h1.Tidy := by
  simp only [Trie.Remove, Trie.GetRoot, hr, hrn] at hrem
  cases hrun : Trie.removeLoop (h ++ [rn.Clone]) h.length k with
  | error e => simp only [hrun] at hrem; cases hrem
  | ok res =>
    simp only [hrun] at hrem
    cases res with
    | none =>
      simp only at hrem
      injection hrem with hrem
      injection hrem with _ hh
      subst hh
      exact ht
    | some hf =>
      simp only at hrem
      injection hrem with hrem
      injection hrem with _ hh
      subst hh
      exact removeLoop_tidy k _ h.length rn.Clone
        (append_tidy h ht rn (List.getElem?_mem hrn)) (List.getElem?_concat_length h _)
        (Or.inr hval) hf hrun

theorem value_none_of_castValue {n : TrieNode} (hcast : ∀ T, n.castValue T = none) :
    n.value_ = none := by
  cases hval : n.value_ with
  | none => rfl
  | some u =>
    have := hcast u.type
    simp [TrieNode.castValue, hval] at this

theorem castValue_none_of_value {n : TrieNode} (hval : n.value_ = none) (T : VType) :
    n.castValue T = none := by
  simp only [TrieNode.castValue, hval]

/-- The store of a built trie is tidy, and the root stores no value. -/
theorem Built.tidy {h : Heap} {t : Trie} (hb : Built h t) :
    h.Tidy ∧ ∃ r rn, t.root_ = some r ∧ h[r]? = some rn ∧ rn.value_ = none := by
  induction hb with
  | start =>
    refine ⟨?_, 0, _, rfl, rfl, rfl⟩
    intro n hn
    simp only [plainStore, List.mem_singleton] at hn
    subst hn
    exact ⟨fun hf => Bool.noConfusion hf, fun _ hv => absurd rfl hv,
      fun q hq => absurd hq (List.not_mem_nil q)⟩
  | put h t k v t1 h1 _ hput ih =>
    obtain ⟨ht, r, rn, hr, hrn, hval⟩ := ih
    refine ⟨Put_tidy h ht t k v t1 h1 hput, ?_⟩
    obtain ⟨t1', h1', a, n1, hput', _, _, _, hr1, hn1, hlook⟩ :=
      Put_spec h ht.closed t r rn hr hrn k v
    rw [hput] at hput'
    injection hput' with hput'
    injection hput' with e1 e2
    subst e1
    subst e2
    refine ⟨a, n1, hr1, hn1, value_none_of_castValue (fun T => ?_)⟩
    have := hlook T []
    simp only [TrieNode.look] at this
    rw [this]
    cases k with
    | nil => exact castValue_none_of_value hval T
    | cons c rest => exact castValue_none_of_value hval T
  | remove h t k t1 h1 _ hk hrem ih =>
    obtain ⟨ht, r, rn, hr, hrn, hval⟩ := ih
    refine ⟨Remove_tidy h ht t r rn hr hrn hval k t1 h1 hrem, ?_⟩
    obtain ⟨t1', h1', a, n1, hrem', _, _, _, hr1, hn1, hlook⟩ :=
      Remove_spec h ht.closed t r rn hr hrn k hk
    rw [hrem] at hrem'
    injection hrem' with hrem'
    injection hrem' with e1 e2
    subst e1
    subst e2
    refine ⟨a, n1, hr1, hn1, value_none_of_castValue (fun T => ?_)⟩
    have := hlook T []
    simp only [TrieNode.look] at this
    rw [this]
    cases k with
    | nil => exact absurd rfl hk
    | cons c rest =>
      cases rest with
      | nil => exact castValue_none_of_value hval T
      | cons c2 rest2 => exact castValue_none_of_value hval T
  | older h t t' h1 _ _ hkeeps ih ih1 =>
    obtain ⟨_, r, rn, hr, hrn, hval⟩ := ih
    refine ⟨ih1.1, r, rn, hr, ?_, hval⟩
    have hlt : r < h.length := by
      by_contra hge
      rw [List.getElem?_eq_none (not_lt.1 hge)] at hrn
      cases hrn
    exact (hkeeps r hlt).trans hrn

theorem pathEnd_child (h : Heap) (q : List Char) :
    ∀ (r a : Nat), q ≠ [] → Trie.pathEnd h r q = some a →
      ∃ pn, pn ∈ h ∧ ∃ x, x ∈ pn.children_ ∧ x.2 = a := by
  induction q with
  | nil => intro r a hne; exact absurd rfl hne
  | cons c rest ih =>
    intro r a _ hpath
    simp only [Trie.pathEnd] at hpath
    cases hrn : h[r]? with
    | none => simp only [hrn] at hpath; cases hpath
    | some rn =>
      simp only [hrn] at hpath
      cases hfind : rn.children_.find c with
      | none => simp only [hfind] at hpath; cases hpath
      | some ch =>
        simp only [hfind] at hpath
        cases rest with
        | nil =>
          simp only [Trie.pathEnd] at hpath
          injection hpath with hpath
          subst hpath
          exact ⟨rn, List.getElem?_mem hrn, (c, ch), Children.mem_of_find hfind, rfl⟩
        | cons c2 rest2 => exact ih ch a (List.cons_ne_nil c2 rest2) hpath

/-- On the initial trie, which has no root, `Remove` dereferences the null root pointer
(line 61), whatever the key and the store: like `Put`, it produces no trie there. -/
theorem Remove_empty_trie_null_root (key : List Char) (h : Heap) :
    Trie.empty.Remove key h = .error .nullDeref := rfl

/-- After `Put("a", 1)` and `Remove("a")` on the trie with a plain root, the root of the
result is a node with neither a value nor children: `Remove` erases the edge from the
cloned root (line 78) and returns that root (line 85). -/
theorem Remove_leaves_bare_root :
    ∃ t1 h1 t2 h2 r2 n, plainTrie.Put ['a'] (.u32 1) plainStore = .ok (t1, h1) ∧
      t1.Remove ['a'] h1 = .ok (t2, h2) ∧ t2.root_ = some r2 ∧ h2[r2]? = some n ∧
      n.value_ = none ∧ n.children_ = [] :=
  ⟨_, _, _, _, _, _, rfl, rfl, rfl, rfl, rfl, rfl⟩

/-- C17 (no dead leaf below the root): in every trie obtained from the trie whose root is
a plain node without children by calls of `Put` and of `Remove` with non-empty keys, every
node below the root (the end of a non-empty path from the root) that is not value-bearing
has a child. -/
theorem Built_no_dead_leaf (h : Heap) (t : Trie) (hb : Built h t) (r : Nat)
    (_hr : t.root_ = some r) (q : List Char) (hq : q ≠ []) (a : Nat) (n : TrieNode)
    (hpath : Trie.pathEnd h r q = some a) (hn : h[a]? = some n)
    (hflag : n.is_value_node_ = false) : n.children_ ≠ [] := by
  obtain ⟨ht, _⟩ := hb.tidy
  obtain ⟨pn, hpn, x, hx, hxa⟩ := pathEnd_child h q r a hq hpath
  obtain ⟨m, hm, hval⟩ := (ht pn hpn).2.2 x hx
  rw [hxa, hn] at hm
  injection hm with hm
  subst hm
  exact (ht n (List.getElem?_mem hn)).2.1 hflag hval

/-- C17, at a concrete input: after `Put("a", 1)`, `Put("ab", 2)` and `Remove("a")` the
node for `"a"` is not value-bearing and keeps the edge for `'b'`. -/
theorem Built_no_dead_leaf_witness :
    Built storeBuilt { root_ := some 6 } ∧ Trie.pathEnd storeBuilt 6 ['a'] = some 7 ∧
      (∀ n, storeBuilt[7]? = some n → n.children_ ≠ []) :=
  have hb : Built storeBuilt { root_ := some 6 } :=
    Built.remove _ _ ['a'] _ _
      (Built.put _ _ ['a', 'b'] (.u32 2) _ _
        (Built.put _ _ ['a'] (.u32 1) _ _ Built.start rfl) rfl)
      (by decide) rfl
  ⟨hb, rfl, fun n hn =>
    Built_no_dead_leaf storeBuilt { root_ := some 6 } hb 6 rfl ['a'] (by decide) 7 n rfl hn
      (by
        have h7 : storeBuilt[7]? = some
            { children_ := [('b', 5)], is_value_node_ := false,
              value_ := some (.u32 1) } := rfl
        rw [h7] at hn
        injection hn with hn
        subst hn
        rfl)⟩

end bustub
